import Mathlib

set_option maxRecDepth 16384

/-!
# Verification of the `hashtable-c` open-addressing hash table

Shallow embedding of `src/hashtable.c` (the single implementation file of the
repository).  C strings are modelled as the list of their bytes before the
terminating NUL (`Key`); a well-formed key therefore has only nonzero bytes
below 256, and `strcmp`-equality coincides with list equality.  `void *`
values are modelled as `Nat`, with `0` standing for the NULL pointer (the code
rejects NULL values, so a stored value is never `0`).  A NULL slot pointer in
the bucket array is `none`; a NULL bucket-array pointer is modelled by the
empty list, which is unambiguous because the code never allocates a
zero-length array (the initial capacity is coerced to at least 1 and resizing
doubles it).

Machine arithmetic: the FNV-1a accumulator is a `uint32_t`, modelled as `Nat`
reduced `% 2^32` after each step.  `size_t` quantities (`size`,
`elementCount`, probe indices) are modelled as plain `Nat`; the C behaviour
differs only for tables of more than `2^32` slots (where `uint32_t newIndex`
in `hashTableResize` could wrap), far outside the range exercised here.
The load-factor test of `hashTableSet` runs in IEEE-754 floating point and
is modelled bit-exactly (`loadFactorExceeded` below): the float comparison
genuinely deviates from the exact rational comparison `count/size > 7/10`
at some large reachable states, and the theorems about the growth trigger
are stated against the float semantics.

Heap behaviour: allocation success is an explicit boolean parameter
(`allocOk`); when it is `false` every `malloc`/`calloc` in the call fails.
The C probe loops (`while(table[index] && table[index]->occupied)`) terminate
iff some slot of the cyclic scan stops them, so they are embedded with fuel
equal to the number of slots — every slot is inspected within `size` steps,
and fuel exhaustion (`none`) models the C loop running forever.
-/

namespace HashTableC

/-- Bytes of a C string, in order, excluding the terminating NUL. -/
abbrev Key := List Nat

/-- A well-formed C string: every byte is nonzero (it precedes the NUL
terminator) and fits in `unsigned char`. -/
def GoodKey (k : Key) : Prop := ∀ b ∈ k, 0 < b ∧ b < 256

instance (k : Key) : Decidable (GoodKey k) := by
  unfold GoodKey; infer_instance

/-- `struct HashSlot` from `hashtable.h`: key, value and occupancy flag. -/
structure HashSlot where
  key : Key
  value : Nat
  occupied : Bool
deriving DecidableEq, Repr

/-- `struct HashTable` (data fields only; the function pointers installed by
`initHashTable` all point to the unique implementations and carry no state).
`table` is the bucket array: one `Option HashSlot` per slot pointer. -/
structure HashTable where
  size : Nat
  elementCount : Nat
  table : List (Option HashSlot)
deriving DecidableEq, Repr

/-- One step of the FNV-1a loop body:
`hashValue ^= (unsigned char)key[i]; hashValue *= 16777619;` in `uint32_t`. -/
def fnv1aStep (h b : Nat) : Nat := ((h ^^^ b) * 16777619) % 4294967296

/-- The 32-bit FNV-1a digest of a key: accumulator starts at the offset basis
`2166136261` and the loop body runs once per byte (source lines 60-66). -/
def fnv1a (key : Key) : Nat := key.foldl fnv1aStep 2166136261

/-- `static uint32_t hash(const char *key, size_t size)`: FNV-1a digest
reduced modulo the slot count (source line 68). -/
def hash (key : Key) (size : Nat) : Nat := fnv1a key % size

/-! ### IEEE-754 model of the load-factor test

`hashTableSet` decides growth with
`(float)hashTable->elementCount / (float)hashTable->size >
LOAD_FACTOR_THRESHOLD` (source line 157, threshold `0.7`, a `double`
literal).  Under the standard SSE evaluation model this is: convert both
`size_t` operands to IEEE binary32 (round to nearest, ties to even), divide
in binary32 (correctly rounded), promote the quotient exactly to binary64
and compare it with the binary64 value of `0.7`.  The whole computation is
reproduced here in exact integer arithmetic: a converted nonnegative
integer is again an integer, and the binary32 quotient is written as
`significand · 2^(exponent - 23)` with a 24-bit significand.  The model is
faithful for operands below `2^128` (conversion would overflow to infinity
beyond that) and quotients down to `2^-126` (no subnormals); both bounds
are far outside anything a `size_t` slot count can produce. -/

/-- Round the fraction `num / den` to the nearest integer, ties to even. -/
def rne (num den : Nat) : Nat :=
  if 2 * (num % den) > den then num / den + 1
  else if 2 * (num % den) < den then num / den
  else if (num / den) % 2 = 0 then num / den else num / den + 1

/-- `⌊log₂ n⌋`, by fuel-bounded recursion (exact whenever `n < 2^fuel`). -/
def ilog2 : Nat → Nat → Nat
  | 0, _ => 0
  | fuel + 1, n => if 2 ≤ n then ilog2 fuel (n / 2) + 1 else 0

/-- `(float)n` for a nonnegative integer `n`: round to a 24-bit
significand, nearest, ties to even.  Values below `2^24` are exact; larger
values are rounded on the grid `2^(⌊log₂ n⌋ - 23)`.  The result is again an
integer. -/
def floatOfNat (n : Nat) : Nat :=
  if n < 16777216 then n
  else rne n (2 ^ (ilog2 128 n - 23)) * 2 ^ (ilog2 128 n - 23)

/-- The IEEE binary64 value of the literal `0.7`, scaled by `2^52`:
`0.7` rounds to `3152519739159347 / 2^52 = 0.69999999999999995…`. -/
def doubleOfPoint7 : Nat := 3152519739159347

/-- `256 + ⌊log₂(a / b)⌋` for positive integers `a`, `b` (the `2^256`
scaling keeps the computation inside `ℕ`); the binary32 quotient of `a / b`
lies in `[2^(qExp - 256), 2^(qExp - 255))`. -/
def qExp (a b : Nat) : Nat := ilog2 400 (a * 2 ^ 256 / b)

/-- The 24-bit significand of the correctly rounded binary32 quotient of
`a / b`: the quotient's value is `qSig a b * 2^(qExp a b - 279)` (that is,
`significand · 2^(exponent - 23)` with exponent `qExp a b - 256`). -/
def qSig (a b : Nat) : Nat :=
  if qExp a b ≤ 279 then rne (a * 2 ^ (279 - qExp a b)) b
  else rne a (b * 2 ^ (qExp a b - 279))

/-- The load test of source line 157:
`(float)elementCount / (float)size > 0.7` under IEEE-754.  A zero operand
short-circuits (`0 / b = 0 ≤ 0.7`; `size` is nonzero in every call, the
`size == 0` guard having already returned).  Otherwise the binary32
quotient `qSig · 2^(qExp - 279)` is compared with
`doubleOfPoint7 / 2^52`, i.e. `qSig · 2^(qExp - 227)` with
`doubleOfPoint7`. -/
def loadFactorExceeded (e s : Nat) : Bool :=
  if floatOfNat e = 0 ∨ floatOfNat s = 0 then false
  else if 227 ≤ qExp (floatOfNat e) (floatOfNat s) then
    decide (doubleOfPoint7 <
      qSig (floatOfNat e) (floatOfNat s) *
        2 ^ (qExp (floatOfNat e) (floatOfNat s) - 227))
  else
    decide (doubleOfPoint7 *
        2 ^ (227 - qExp (floatOfNat e) (floatOfNat s)) <
      qSig (floatOfNat e) (floatOfNat s))

/-- The slot pointer at index `idx` (out-of-range reads never happen in the
in-range states the theorems quantify over; `getD` returns `none` there). -/
def cellAt (arr : List (Option HashSlot)) (idx : Nat) : Option HashSlot :=
  arr.getD idx none

/-- The shared probe loop of `hashTableSet`/`Get`/`Delete`/`Has`:
`while(table[index] && table[index]->occupied) { if(strcmp(...key, key) == 0)
...; index = (index + 1) % size; }`.  Returns the index at which the loop
stops (NULL slot, unoccupied slot, or key match); `none` models the loop
cycling forever.  Called with `fuel = size`, which visits every slot once. -/
def probe (arr : List (Option HashSlot)) (size : Nat) (key : Key) :
    Nat → Nat → Option Nat
  | 0, _ => none
  | fuel+1, idx =>
    match cellAt arr idx with
    | none => some idx
    | some s =>
      if s.occupied then
        if s.key = key then some idx
        else probe arr size key fuel ((idx + 1) % size)
      else some idx

/-- The reinsertion probe loop of `hashTableResize` (source lines 112-113):
`while(newTable[newIndex] && newTable[newIndex]->occupied) newIndex =
(newIndex + 1) % newSize;` — no key comparison. -/
def probeFree (arr : List (Option HashSlot)) (size : Nat) :
    Nat → Nat → Option Nat
  | 0, _ => none
  | fuel+1, idx =>
    match cellAt arr idx with
    | none => some idx
    | some s =>
      if s.occupied then probeFree arr size fuel ((idx + 1) % size)
      else some idx

/-- `table[i] && table[i]->occupied`: the slot pointer is non-NULL and the
slot is occupied. -/
def isOcc : Option HashSlot → Bool
  | some s => s.occupied
  | none => false

/-- Number of occupied slots actually present in the bucket array. -/
def countOccupied (arr : List (Option HashSlot)) : Nat := arr.countP isOcc

/-- The slot pointer holds a live entry for key `k`. -/
def matchesKey (k : Key) : Option HashSlot → Bool
  | some s => s.occupied && decide (s.key = k)
  | none => false

/-- Number of slots holding a live entry for key `k`. -/
def countKey (arr : List (Option HashSlot)) (k : Key) : Nat :=
  arr.countP (matchesKey k)

/-- Some slot holds a live entry for key `k`. -/
def hasKey (arr : List (Option HashSlot)) (k : Key) : Bool :=
  arr.any (matchesKey k)

/-- Outcome of a mutating call.  `ok t` — the call returned normally leaving
table state `t`; `rejected` — an argument-validation guard fired and the call
returned with the table unchanged; `freed` — an allocation failed and the
code destroyed the whole table via `hashTableFree(&hashTable)` (the caller's
handle now dangles; in `hashTableSet` the statements after a failed resize
even dereference the freed pointer, so the model stops at the free);
`diverge` — a probe loop never terminates. -/
inductive OpResult where
  | ok (t : HashTable)
  | rejected
  | freed
  | diverge
deriving DecidableEq, Repr

/-- The `for` loop of `hashTableResize` (source lines 105-133): each occupied
slot of the old array is reinserted at the first free position of its probe
sequence in the new array; NULL and unoccupied old slots are skipped. -/
def reinsertLoop (newSize : Nat) :
    List (Option HashSlot) → List (Option HashSlot) →
    Option (List (Option HashSlot))
  | [], acc => some acc
  | none :: rest, acc => reinsertLoop newSize rest acc
  | some s :: rest, acc =>
    if s.occupied then
      match probeFree acc newSize newSize (hash s.key newSize) with
      | none => none
      | some p =>
        reinsertLoop newSize rest (acc.set p (some ⟨s.key, s.value, true⟩))
    else reinsertLoop newSize rest acc

/-- `static void hashTableResize(HashTable *hashTable)` (source lines
94-141).  `calloc` of the doubled array failing (`allocOk = false`) makes the
code free the entire table (`hashTableFree(&hashTable)`, line 99).  With the
allocation succeeding, every occupied slot is reinserted and the table's
`size`/`table` fields are replaced; `elementCount` is untouched. -/
def hashTableResize (allocOk : Bool) (t : HashTable) : OpResult :=
  if allocOk then
    match reinsertLoop (t.size * 2) t.table
        (List.replicate (t.size * 2) none) with
    | none => .diverge
    | some newArr =>
      .ok { size := t.size * 2, elementCount := t.elementCount,
            table := newArr }
  else .freed

/-- `static void hashTableSet(...)` (source lines 143-189).  Guards reject an
unallocated table, a NULL value and an empty key (a NULL key pointer is not
representable in the model; it is rejected by the same guard as a NULL
value).  The load test `(float)elementCount / (float)size >
LOAD_FACTOR_THRESHOLD` is `loadFactorExceeded`, the IEEE-754 model above.
After the (possible) resize the probe loop runs; a NULL stop slot is
allocated (`createHashSlot`, whose failure also frees the whole table, line
174), an unoccupied or fresh slot increments `elementCount`, and the slot
is overwritten with the new key, value and `occupied = true`. -/
def hashTableSet (allocOk : Bool) (t : HashTable) (key : Key) (value : Nat) :
    OpResult :=
  if t.size = 0 then .rejected
  else if value = 0 then .rejected
  else if key = [] then .rejected
  else
    match (if loadFactorExceeded t.elementCount t.size
           then hashTableResize allocOk t else .ok t) with
    | .ok t1 =>
      match probe t1.table t1.size key t1.size (hash key t1.size) with
      | none => .diverge
      | some i =>
        match cellAt t1.table i with
        | none =>
          if allocOk then
            .ok { t1 with
                  elementCount := t1.elementCount + 1,
                  table := t1.table.set i (some ⟨key, value, true⟩) }
          else .freed
        | some s =>
          if s.occupied then
            .ok { t1 with
                  table := t1.table.set i (some ⟨key, value, true⟩) }
          else
            .ok { t1 with
                  elementCount := t1.elementCount + 1,
                  table := t1.table.set i (some ⟨key, value, true⟩) }
    | r => r

/-- Outcome of `hashTableGet`: the stored value pointer on a live match,
NULL (`notFound`) otherwise, or a non-terminating probe loop. -/
inductive GetResult where
  | found (v : Nat)
  | notFound
  | diverge
deriving DecidableEq, Repr

/-- `static const void *hashTableGet(...)` (source lines 191-206): guards
return NULL for a NULL/empty table or key; otherwise the probe loop either
returns the matching slot's value from inside the loop or falls out at a
NULL/unoccupied slot and returns NULL. -/
def hashTableGet (t : HashTable) (key : Key) : GetResult :=
  if t.elementCount = 0 then .notFound
  else if key = [] then .notFound
  else
    match probe t.table t.size key t.size (hash key t.size) with
    | none => .diverge
    | some i =>
      match cellAt t.table i with
      | some s => if s.occupied ∧ s.key = key then .found s.value
                  else .notFound
      | none => .notFound

/-- `static bool hashTableHas(...)` (source lines 230-245); same loop as
`hashTableGet`, returning a boolean.  `none` models a cycling probe loop. -/
def hashTableHas (t : HashTable) (key : Key) : Option Bool :=
  if t.elementCount = 0 then some false
  else if key = [] then some false
  else
    match probe t.table t.size key t.size (hash key t.size) with
    | none => none
    | some i =>
      match cellAt t.table i with
      | some s => some (s.occupied ∧ s.key = key : Bool)
      | none => some false

/-- `static void hashTableDelete(...)` (source lines 208-228): guards make
the call a no-op; on a live match the slot pointer is set to NULL, the slot
freed and `elementCount` decremented; an absent key is a no-op. -/
def hashTableDelete (t : HashTable) (key : Key) : OpResult :=
  if t.elementCount = 0 then .ok t
  else if key = [] then .ok t
  else
    match probe t.table t.size key t.size (hash key t.size) with
    | none => .diverge
    | some i =>
      match cellAt t.table i with
      | some s =>
        if s.occupied ∧ s.key = key then
          .ok { t with elementCount := t.elementCount - 1,
                       table := t.table.set i none }
        else .ok t
      | none => .ok t

/-- `HashTable *initHashTable(size_t initSize)` (source lines 290-320): a
capacity of 0 is coerced to 1, the counters are initialised and the bucket
array is `calloc`ed to all-NULL; allocation failure returns NULL. -/
def initHashTable (allocOk : Bool) (initSize : Nat) : Option HashTable :=
  if allocOk then
    some { size := if initSize = 0 then 1 else initSize,
           elementCount := 0,
           table := List.replicate (if initSize = 0 then 1 else initSize)
                      none }
  else none

/-- `static size_t hashTableSize(HashTable *hashTable)` (source lines
272-279): a NULL handle is reported on stderr and the function returns 0;
otherwise the maintained `size` counter is returned. -/
def hashTableSize : Option HashTable → Nat
  | none => 0
  | some t => t.size

/-- `static size_t hashTableCount(HashTable *hashTable)` (source lines
281-288): a NULL handle is reported on stderr and the function returns 0;
otherwise the maintained `elementCount` counter is returned. -/
def hashTableCount : Option HashTable → Nat
  | none => 0
  | some t => t.elementCount

/-- `static void hashTableFree(HashTable **hashTablePtr)` (source lines
247-270), acting on the caller's pointer.  The guard
`!hashTable || !hashTable->table || hashTable->size == 0` makes the call a
no-op (a NULL bucket array is the empty list in this model); otherwise every
occupied slot and the array are released, the struct freed and the caller's
pointer set to NULL. -/
def hashTableFree : Option HashTable → Option HashTable
  | none => none
  | some t => if t.table = [] ∨ t.size = 0 then some t else none

/-- The contents of the `HashTable` struct at the moment `free(hashTable)`
runs (source lines 260-266): the slot loop and `free` of the array have set
`table` to NULL and the two counters have just been reset to 0. -/
def freeFinalStruct (_t : HashTable) : HashTable :=
  { size := 0, elementCount := 0, table := [] }

/-- A sequence of `set` calls, stopping at the first call that does not
return normally. -/
def setAll : HashTable → List (Key × Nat) → OpResult
  | t, [] => .ok t
  | t, (k, v) :: rest =>
    match hashTableSet true t k v with
    | .ok t' => setAll t' rest
    | r => r

/-- Basic well-formedness of a live table: at least one slot, the bucket
array really has `size` entries, and `elementCount` agrees with the number
of occupied slots. -/
def ValidTable (t : HashTable) : Prop :=
  0 < t.size ∧ t.table.length = t.size ∧ countOccupied t.table = t.elementCount

instance (t : HashTable) : Decidable (ValidTable t) := by
  unfold ValidTable; infer_instance

/-- The probe sequence for key `k` stops at a slot holding a live entry for
`k` (the spec's probe-reachability invariant, specialised to one key). -/
def reachesKey (t : HashTable) (k : Key) : Bool :=
  match probe t.table t.size k t.size (hash k t.size) with
  | some j => matchesKey k (cellAt t.table j)
  | none => false

/-- Slot-local part of the spec's table invariant: a live entry's key occurs
in exactly one slot and is reachable along its own probe sequence. -/
def slotInv (t : HashTable) (j : Nat) : Bool :=
  match cellAt t.table j with
  | some s =>
    if s.occupied then countKey t.table s.key == 1 && reachesKey t s.key
    else true
  | none => true

/-- A valid table in the sense of the spec (§3): well-formed, every present
key occupies exactly one slot, and every present key is reachable by probing
from its hash index. -/
def TableInv (t : HashTable) : Prop :=
  ValidTable t ∧ ∀ j < t.table.length, slotInv t j = true

instance (t : HashTable) : Decidable (TableInv t) := by
  unfold TableInv; infer_instance

/-- Every live entry for key `k` in the array carries the value `v`. -/
def KeyAllVal (arr : List (Option HashSlot)) (k : Key) (v : Nat) : Prop :=
  ∀ j s, cellAt arr j = some s → s.occupied = true → s.key = k →
    s.value = v

/-- The hash contract in the spec's own words (§4.1): "initialize an
accumulator to the 32-bit offset basis 2166136261; for each byte of the key
(treated as unsigned 8-bit), XOR the accumulator with the byte, then
multiply by the FNV prime 16777619 (32-bit wraparound arithmetic); final
result taken modulo capacity".  Stated as explicit recursion over the bytes,
to be compared with the source-derived `hash`. -/
def specWordsFnv : Nat → Key → Nat
  | acc, [] => acc
  | acc, b :: bs => specWordsFnv (((acc ^^^ b) * 16777619) % 4294967296) bs

/-- Spec-worded hash contract: FNV-1a digest of the key, modulo capacity. -/
def specWordsHash (key : Key) (capacity : Nat) : Nat :=
  specWordsFnv 2166136261 key % capacity

/-! ### Helper lemmas about cells and counters -/

theorem cellAt_set_eq {arr : List (Option HashSlot)} {i : Nat}
    (x : Option HashSlot) (h : i < arr.length) :
    cellAt (arr.set i x) i = x := by
  unfold cellAt
  rw [List.getD_eq_getElem?_getD, List.getElem?_set_eq_of_lt x h]
  rfl

theorem cellAt_set_ne {arr : List (Option HashSlot)} {i j : Nat}
    (x : Option HashSlot) (h : i ≠ j) :
    cellAt (arr.set i x) j = cellAt arr j := by
  unfold cellAt
  rw [List.getD_eq_getElem?_getD, List.getD_eq_getElem?_getD,
    List.getElem?_set_ne h]

theorem cellAt_some_lt {arr : List (Option HashSlot)} {j : Nat}
    {s : HashSlot} (h : cellAt arr j = some s) : j < arr.length := by
  by_contra hge
  rw [cellAt, List.getD_eq_getElem?_getD, List.getElem?_eq_none
    (Nat.le_of_not_lt hge)] at h
  exact Option.noConfusion h

theorem cellAt_mem {arr : List (Option HashSlot)} {j : Nat}
    {s : HashSlot} (h : cellAt arr j = some s) : some s ∈ arr := by
  have hj := cellAt_some_lt h
  rw [cellAt, List.getD_eq_getElem?_getD, List.getElem?_eq_getElem hj] at h
  rw [List.mem_iff_getElem?]
  exact ⟨j, by rw [List.getElem?_eq_getElem hj]; exact congrArg some h⟩

theorem countOccupied_le_length (arr : List (Option HashSlot)) :
    countOccupied arr ≤ arr.length :=
  arr.countP_le_length isOcc

theorem countP_set_balance (p : Option HashSlot → Bool)
    (arr : List (Option HashSlot)) :
    ∀ (i : Nat) (x : Option HashSlot), i < arr.length →
    (arr.set i x).countP p + (if p (cellAt arr i) then 1 else 0) =
      arr.countP p + (if p x then 1 else 0) := by
  induction arr with
  | nil => intro i x h; simp at h
  | cons c cs ih =>
    intro i x h
    cases i with
    | zero =>
      simp only [List.set_cons_zero, List.countP_cons]
      have : cellAt (c :: cs) 0 = c := rfl
      rw [this]; omega
    | succ i =>
      simp only [List.set_cons_succ, List.countP_cons]
      have : cellAt (c :: cs) (i + 1) = cellAt cs i := rfl
      rw [this]
      have hlen : i < cs.length := by simpa using h
      have := ih i x hlen
      omega

theorem isOcc_of_matchesKey {k : Key} {c : Option HashSlot}
    (h : matchesKey k c = true) : isOcc c = true := by
  cases c with
  | none => simp [matchesKey] at h
  | some s => simp only [matchesKey, Bool.and_eq_true] at h
              simp [isOcc, h.1]

theorem matchesKey_some {k : Key} {s : HashSlot} :
    matchesKey k (some s) = true ↔ s.occupied = true ∧ s.key = k := by
  simp [matchesKey]

theorem hasKey_iff_countKey_pos {arr : List (Option HashSlot)} {k : Key} :
    hasKey arr k = true ↔ 0 < countKey arr k := by
  unfold hasKey countKey
  rw [List.any_eq_true, List.countP_pos_iff]

theorem countKey_pos_of_cellAt {arr : List (Option HashSlot)} {j : Nat}
    {k : Key} (h : matchesKey k (cellAt arr j) = true) :
    0 < countKey arr k := by
  rw [countKey, List.countP_pos_iff]
  cases hc : cellAt arr j with
  | none => rw [hc] at h; simp [matchesKey] at h
  | some s => exact ⟨some s, cellAt_mem hc, by rw [hc] at h; exact h⟩

theorem hasKey_of_cellAt {arr : List (Option HashSlot)} {j : Nat} {k : Key}
    (h : matchesKey k (cellAt arr j) = true) : hasKey arr k = true :=
  hasKey_iff_countKey_pos.2 (countKey_pos_of_cellAt h)

theorem countOccupied_pos_of_cellAt {arr : List (Option HashSlot)} {j : Nat}
    (h : isOcc (cellAt arr j) = true) : 0 < countOccupied arr := by
  rw [countOccupied, List.countP_pos_iff]
  cases hc : cellAt arr j with
  | none => rw [hc] at h; simp [isOcc] at h
  | some s => exact ⟨some s, cellAt_mem hc, by rw [hc] at h; exact h⟩

theorem exists_cellAt_of_hasKey {arr : List (Option HashSlot)} {k : Key}
    (h : hasKey arr k = true) :
    ∃ j, j < arr.length ∧ matchesKey k (cellAt arr j) = true := by
  rw [hasKey, List.any_eq_true] at h
  obtain ⟨c, hmem, hc⟩ := h
  rw [List.mem_iff_getElem?] at hmem
  obtain ⟨j, hj⟩ := hmem
  refine ⟨j, ?_, ?_⟩
  · exact (List.getElem?_eq_some.1 hj).1
  · rw [cellAt, List.getD_eq_getElem?_getD, hj]; exact hc

theorem not_matchesKey_of_not_hasKey {arr : List (Option HashSlot)}
    {k : Key} (h : hasKey arr k = false) (j : Nat) :
    matchesKey k (cellAt arr j) = false := by
  by_contra hm
  rw [hasKey_of_cellAt (Bool.of_not_eq_false hm)] at h
  exact Bool.noConfusion h

theorem countKey_pair {arr : List (Option HashSlot)} {k : Key} :
    ∀ {j1 j2 : Nat}, j1 ≠ j2 → matchesKey k (cellAt arr j1) = true →
    matchesKey k (cellAt arr j2) = true → 2 ≤ countKey arr k := by
  induction arr with
  | nil =>
    intro j1 j2 _ h1 _
    have : cellAt ([] : List (Option HashSlot)) j1 = none := by
      cases j1 <;> rfl
    rw [this] at h1; simp [matchesKey] at h1
  | cons c cs ih =>
    intro j1 j2 hne h1 h2
    rw [countKey, List.countP_cons]
    cases j1 with
    | zero =>
      have hc : cellAt (c :: cs) 0 = c := rfl
      rw [hc] at h1
      cases j2 with
      | zero => exact absurd rfl hne
      | succ j2 =>
        have : cellAt (c :: cs) (j2 + 1) = cellAt cs j2 := rfl
        rw [this] at h2
        have hcnt := countKey_pos_of_cellAt h2
        rw [countKey] at hcnt
        have hite : (if matchesKey k c = true then 1 else 0) = 1 := by
          simp [h1]
        rw [hite]; omega
    | succ j1 =>
      have hc1 : cellAt (c :: cs) (j1 + 1) = cellAt cs j1 := rfl
      rw [hc1] at h1
      cases j2 with
      | zero =>
        have hc : cellAt (c :: cs) 0 = c := rfl
        rw [hc] at h2
        have hcnt := countKey_pos_of_cellAt h1
        rw [countKey] at hcnt
        have hite : (if matchesKey k c = true then 1 else 0) = 1 := by
          simp [h2]
        rw [hite]; omega
      | succ j2 =>
        have hc2 : cellAt (c :: cs) (j2 + 1) = cellAt cs j2 := rfl
        rw [hc2] at h2
        have := ih (fun h => hne (by rw [h])) h1 h2
        rw [countKey] at this
        omega

/-! ### Probe-loop lemmas -/

theorem probe_stop_lt {arr : List (Option HashSlot)} {size : Nat} {key : Key}
    (hs : 0 < size) :
    ∀ {fuel idx i : Nat}, idx < size →
    probe arr size key fuel idx = some i → i < size := by
  intro fuel
  induction fuel with
  | zero => intro idx i _ h; exact Option.noConfusion h
  | succ fuel ih =>
    intro idx i hidx h
    rw [probe] at h
    cases hc : cellAt arr idx with
    | none => simp only [hc, Option.some.injEq] at h; omega
    | some s =>
      simp only [hc] at h
      by_cases ho : s.occupied = true
      · rw [if_pos ho] at h
        by_cases hk : s.key = key
        · rw [if_pos hk] at h
          simp only [Option.some.injEq] at h; omega
        · rw [if_neg hk] at h
          exact ih (Nat.mod_lt _ hs) h
      · rw [if_neg ho] at h
        simp only [Option.some.injEq] at h; omega

theorem probe_stop_spec {arr : List (Option HashSlot)} {size : Nat}
    {key : Key} :
    ∀ {fuel idx i : Nat}, probe arr size key fuel idx = some i →
    isOcc (cellAt arr i) = false ∨ matchesKey key (cellAt arr i) = true := by
  intro fuel
  induction fuel with
  | zero => intro idx i h; exact Option.noConfusion h
  | succ fuel ih =>
    intro idx i h
    rw [probe] at h
    cases hc : cellAt arr idx with
    | none =>
      simp only [hc, Option.some.injEq] at h
      subst h; left; rw [hc]; rfl
    | some s =>
      simp only [hc] at h
      by_cases ho : s.occupied = true
      · rw [if_pos ho] at h
        by_cases hk : s.key = key
        · rw [if_pos hk] at h
          simp only [Option.some.injEq] at h
          subst h; right; rw [hc]
          exact matchesKey_some.2 ⟨ho, hk⟩
        · rw [if_neg hk] at h; exact ih h
      · rw [if_neg ho] at h
        simp only [Option.some.injEq] at h
        subst h; left; rw [hc]
        simpa [isOcc] using ho

theorem probe_none_occupied {arr : List (Option HashSlot)} {size : Nat}
    {key : Key} (hs : 0 < size) :
    ∀ {fuel idx : Nat}, idx < size →
    probe arr size key fuel idx = none → ∀ j < fuel,
    isOcc (cellAt arr ((idx + j) % size)) = true := by
  intro fuel
  induction fuel with
  | zero => intro idx _ _ j hj; omega
  | succ fuel ih =>
    intro idx hidx h j hj
    rw [probe] at h
    cases hc : cellAt arr idx with
    | none => rw [hc] at h; exact Option.noConfusion h
    | some s =>
      simp only [hc] at h
      by_cases ho : s.occupied = true
      · rw [if_pos ho] at h
        by_cases hk : s.key = key
        · rw [if_pos hk] at h; exact Option.noConfusion h
        · rw [if_neg hk] at h
          cases j with
          | zero =>
            rw [Nat.add_zero, Nat.mod_eq_of_lt hidx, hc]
            simpa [isOcc] using ho
          | succ j =>
            have hstep := ih (Nat.mod_lt _ hs) h j (by omega)
            rw [Nat.mod_add_mod] at hstep
            have harith : idx + 1 + j = idx + (j + 1) := by omega
            rw [harith] at hstep
            exact hstep
      · rw [if_neg ho] at h; exact Option.noConfusion h

theorem probeFree_stop_lt {arr : List (Option HashSlot)} {size : Nat}
    (hs : 0 < size) :
    ∀ {fuel idx i : Nat}, idx < size →
    probeFree arr size fuel idx = some i → i < size := by
  intro fuel
  induction fuel with
  | zero => intro idx i _ h; exact Option.noConfusion h
  | succ fuel ih =>
    intro idx i hidx h
    rw [probeFree] at h
    cases hc : cellAt arr idx with
    | none => simp only [hc, Option.some.injEq] at h; omega
    | some s =>
      simp only [hc] at h
      by_cases ho : s.occupied = true
      · rw [if_pos ho] at h; exact ih (Nat.mod_lt _ hs) h
      · rw [if_neg ho] at h
        simp only [Option.some.injEq] at h; omega

theorem probeFree_stop_spec {arr : List (Option HashSlot)} {size : Nat} :
    ∀ {fuel idx i : Nat}, probeFree arr size fuel idx = some i →
    isOcc (cellAt arr i) = false := by
  intro fuel
  induction fuel with
  | zero => intro idx i h; exact Option.noConfusion h
  | succ fuel ih =>
    intro idx i h
    rw [probeFree] at h
    cases hc : cellAt arr idx with
    | none =>
      simp only [hc, Option.some.injEq] at h
      subst h; rw [hc]; rfl
    | some s =>
      simp only [hc] at h
      by_cases ho : s.occupied = true
      · rw [if_pos ho] at h; exact ih h
      · rw [if_neg ho] at h
        simp only [Option.some.injEq] at h
        subst h; rw [hc]
        simpa [isOcc] using ho

theorem probeFree_none_occupied {arr : List (Option HashSlot)} {size : Nat}
    (hs : 0 < size) :
    ∀ {fuel idx : Nat}, idx < size →
    probeFree arr size fuel idx = none → ∀ j < fuel,
    isOcc (cellAt arr ((idx + j) % size)) = true := by
  intro fuel
  induction fuel with
  | zero => intro idx _ _ j hj; omega
  | succ fuel ih =>
    intro idx hidx h j hj
    rw [probeFree] at h
    cases hc : cellAt arr idx with
    | none => rw [hc] at h; exact Option.noConfusion h
    | some s =>
      simp only [hc] at h
      by_cases ho : s.occupied = true
      · rw [if_pos ho] at h
        cases j with
        | zero =>
          rw [Nat.add_zero, Nat.mod_eq_of_lt hidx, hc]
          simpa [isOcc] using ho
        | succ j =>
          have hstep := ih (Nat.mod_lt _ hs) h j (by omega)
          rw [Nat.mod_add_mod] at hstep
          have harith : idx + 1 + j = idx + (j + 1) := by omega
          rw [harith] at hstep
          exact hstep
      · rw [if_neg ho] at h; exact Option.noConfusion h

/-- Starting anywhere inside the table, `size` steps of the cyclic scan
visit every slot. -/
theorem window_covers {size idx i : Nat} (hs : 0 < size) (hidx : idx < size)
    (hi : i < size) : ∃ j < size, (idx + j) % size = i := by
  refine ⟨(size + i - idx) % size, Nat.mod_lt _ hs, ?_⟩
  rw [Nat.add_mod_mod]
  have harith : idx + (size + i - idx) = size + i := by omega
  rw [harith, Nat.add_mod_left]
  exact Nat.mod_eq_of_lt hi

theorem countOccupied_eq_length_of_all {arr : List (Option HashSlot)}
    {size : Nat} (hlen : arr.length = size)
    (hall : ∀ i < size, isOcc (cellAt arr i) = true) :
    countOccupied arr = arr.length := by
  rw [countOccupied, List.countP_eq_length]
  intro c hcmem
  rw [List.mem_iff_getElem?] at hcmem
  obtain ⟨j, hj⟩ := hcmem
  have hjlt : j < arr.length := (List.getElem?_eq_some.1 hj).1
  have hcj : cellAt arr j = c := by
    rw [cellAt, List.getD_eq_getElem?_getD, hj]; rfl
  rw [← hcj]
  exact hall j (by omega)

/-- If the bucket array has a free slot, the keyed probe loop terminates. -/
theorem probe_some_of_room {arr : List (Option HashSlot)} {size idx : Nat}
    {key : Key} (hs : 0 < size) (hlen : arr.length = size)
    (hidx : idx < size) (hroom : countOccupied arr < size) :
    ∃ i, probe arr size key size idx = some i := by
  cases hp : probe arr size key size idx with
  | some i => exact ⟨i, rfl⟩
  | none =>
    exfalso
    have hall : ∀ i < size, isOcc (cellAt arr i) = true := by
      intro i hi
      obtain ⟨j, hj, hji⟩ := window_covers hs hidx hi
      rw [← hji]
      exact probe_none_occupied hs hidx hp j hj
    have := countOccupied_eq_length_of_all hlen hall
    omega

/-- If the bucket array has a free slot, the free-slot probe loop
terminates. -/
theorem probeFree_some_of_room {arr : List (Option HashSlot)}
    {size idx : Nat} (hs : 0 < size) (hlen : arr.length = size)
    (hidx : idx < size) (hroom : countOccupied arr < size) :
    ∃ i, probeFree arr size size idx = some i := by
  cases hp : probeFree arr size size idx with
  | some i => exact ⟨i, rfl⟩
  | none =>
    exfalso
    have hall : ∀ i < size, isOcc (cellAt arr i) = true := by
      intro i hi
      obtain ⟨j, hj, hji⟩ := window_covers hs hidx hi
      rw [← hji]
      exact probeFree_none_occupied hs hidx hp j hj
    have := countOccupied_eq_length_of_all hlen hall
    omega

theorem matchesKey_false_of_free {k : Key} {c : Option HashSlot}
    (h : isOcc c = false) : matchesKey k c = false := by
  by_contra hm
  rw [isOcc_of_matchesKey (Bool.of_not_eq_false hm)] at h
  exact Bool.noConfusion h

theorem countKey_eq_zero_of_not_hasKey {arr : List (Option HashSlot)}
    {k : Key} (h : hasKey arr k = false) : countKey arr k = 0 := by
  by_contra hne
  rw [(@hasKey_iff_countKey_pos arr k).2 (by omega)] at h
  exact Bool.noConfusion h

theorem cellAt_cons_zero (c : Option HashSlot)
    (rest : List (Option HashSlot)) : cellAt (c :: rest) 0 = c := rfl

theorem cellAt_cons_succ (c : Option HashSlot)
    (rest : List (Option HashSlot)) (j : Nat) :
    cellAt (c :: rest) (j + 1) = cellAt rest j := rfl

theorem keyAllVal_tail {c : Option HashSlot} {rest : List (Option HashSlot)}
    {k : Key} {v : Nat} (h : KeyAllVal (c :: rest) k v) :
    KeyAllVal rest k v := fun j s hc => h (j + 1) s hc

/-- Writing the slot at which the keyed probe stopped with a matching entry
does not change where the probe stops. -/
theorem probe_set_match {arr : List (Option HashSlot)} {size : Nat}
    {key : Key} (v : Nat) :
    ∀ {fuel idx i : Nat}, probe arr size key fuel idx = some i →
    probe (arr.set i (some ⟨key, v, true⟩)) size key fuel idx = some i := by
  intro fuel
  induction fuel with
  | zero => intro idx i h; exact Option.noConfusion h
  | succ fuel ih =>
    intro idx i h
    rw [probe] at h
    rw [probe]
    cases hc : cellAt arr idx with
    | none =>
      simp only [hc, Option.some.injEq] at h
      subst h
      by_cases hlen : idx < arr.length
      · rw [cellAt_set_eq _ hlen]
        simp
      · rw [List.set_eq_of_length_le (Nat.le_of_not_lt hlen), hc]
    | some s =>
      simp only [hc] at h
      by_cases ho : s.occupied = true
      · rw [if_pos ho] at h
        by_cases hk : s.key = key
        · rw [if_pos hk] at h
          simp only [Option.some.injEq] at h
          subst h
          by_cases hlen : idx < arr.length
          · rw [cellAt_set_eq _ hlen]; simp
          · rw [List.set_eq_of_length_le (Nat.le_of_not_lt hlen), hc]
            simp [ho, hk]
        · rw [if_neg hk] at h
          have hne : i ≠ idx := by
            intro he
            rcases probe_stop_spec h with hfree | hmatch
            · rw [he, hc] at hfree
              simp [isOcc, ho] at hfree
            · rw [he, hc] at hmatch
              simp [matchesKey, hk] at hmatch
          rw [cellAt_set_ne _ hne]
          rw [hc]
          simp only [if_pos ho, if_neg hk]
          exact ih h
      · rw [if_neg ho] at h
        simp only [Option.some.injEq] at h
        subst h
        have hlen : idx < arr.length := cellAt_some_lt hc
        rw [cellAt_set_eq _ hlen]
        simp

/-- Writing any value into a free slot does not disturb a keyed probe that
stops at an occupied matching slot. -/
theorem probe_set_other {arr : List (Option HashSlot)} {size q : Nat}
    {key : Key} (x : Option HashSlot) (hq : isOcc (cellAt arr q) = false) :
    ∀ {fuel idx i : Nat}, probe arr size key fuel idx = some i →
    matchesKey key (cellAt arr i) = true →
    probe (arr.set q x) size key fuel idx = some i := by
  intro fuel
  induction fuel with
  | zero => intro idx i h; exact Option.noConfusion h
  | succ fuel ih =>
    intro idx i h hm
    rw [probe] at h
    rw [probe]
    cases hc : cellAt arr idx with
    | none =>
      simp only [hc, Option.some.injEq] at h
      subst h
      rw [hc] at hm
      simp [matchesKey] at hm
    | some s =>
      simp only [hc] at h
      by_cases ho : s.occupied = true
      · rw [if_pos ho] at h
        by_cases hk : s.key = key
        · rw [if_pos hk] at h
          simp only [Option.some.injEq] at h
          subst h
          have hne : q ≠ idx := by
            intro he; rw [he, hc] at hq
            simp [isOcc, ho] at hq
          rw [cellAt_set_ne _ hne, hc]
          simp [ho, hk]
        · rw [if_neg hk] at h
          have hne : q ≠ idx := by
            intro he; rw [he, hc] at hq
            simp [isOcc, ho] at hq
          rw [cellAt_set_ne _ hne, hc]
          simp only [if_pos ho, if_neg hk]
          exact ih h hm
      · rw [if_neg ho] at h
        simp only [Option.some.injEq] at h
        subst h
        rw [hc] at hm
        simp [matchesKey, ho] at hm

/-- Placing a fresh key at the slot found by the free-slot probe makes the
keyed probe from the same start stop exactly there. -/
theorem probeFree_to_probe {arr : List (Option HashSlot)} {size : Nat}
    {key : Key} (v : Nat) (hnk : hasKey arr key = false) :
    ∀ {fuel idx p : Nat}, probeFree arr size fuel idx = some p →
    probe (arr.set p (some ⟨key, v, true⟩)) size key fuel idx = some p := by
  intro fuel
  induction fuel with
  | zero => intro idx p h; exact Option.noConfusion h
  | succ fuel ih =>
    intro idx p h
    rw [probeFree] at h
    rw [probe]
    cases hc : cellAt arr idx with
    | none =>
      simp only [hc, Option.some.injEq] at h
      subst h
      by_cases hlen : idx < arr.length
      · rw [cellAt_set_eq _ hlen]; simp
      · rw [List.set_eq_of_length_le (Nat.le_of_not_lt hlen), hc]
    | some s =>
      simp only [hc] at h
      by_cases ho : s.occupied = true
      · rw [if_pos ho] at h
        have hne : p ≠ idx := by
          intro he
          have := probeFree_stop_spec h
          rw [← he] at hc
          rw [hc] at this
          simp [isOcc, ho] at this
        rw [cellAt_set_ne _ hne, hc]
        have hk : ¬s.key = key := by
          have := not_matchesKey_of_not_hasKey hnk idx
          rw [hc] at this
          simp [matchesKey, ho] at this
          exact this
        simp only [if_pos ho, if_neg hk]
        exact ih h
      · rw [if_neg ho] at h
        simp only [Option.some.injEq] at h
        subst h
        have hlen : idx < arr.length := cellAt_some_lt hc
        rw [cellAt_set_eq _ hlen]
        simp

theorem countOccupied_set_free {arr : List (Option HashSlot)} {i : Nat}
    {x : Option HashSlot} (hi : i < arr.length)
    (hfree : isOcc (cellAt arr i) = false) (hx : isOcc x = true) :
    countOccupied (arr.set i x) = countOccupied arr + 1 := by
  have := countP_set_balance isOcc arr i x hi
  rw [hfree, hx] at this
  simpa [countOccupied] using this

theorem countOccupied_set_occ {arr : List (Option HashSlot)} {i : Nat}
    {x : Option HashSlot} (hi : i < arr.length)
    (hocc : isOcc (cellAt arr i) = true) (hx : isOcc x = true) :
    countOccupied (arr.set i x) = countOccupied arr := by
  have hbal := countP_set_balance isOcc arr i x hi
  rw [hocc, hx] at hbal
  have hone : (if (true = true) then 1 else 0) = 1 := rfl
  rw [hone] at hbal
  simp only [countOccupied]
  omega

theorem countKey_set_free {arr : List (Option HashSlot)} {i : Nat}
    {k : Key} (x : Option HashSlot) (hi : i < arr.length)
    (hfree : matchesKey k (cellAt arr i) = false) :
    countKey (arr.set i x) k =
      countKey arr k + (if matchesKey k x = true then 1 else 0) := by
  have := countP_set_balance (matchesKey k) arr i x hi
  rw [hfree] at this
  simp only [Bool.false_eq_true, if_false] at this
  simpa [countKey] using this

theorem keyAllVal_of_countKey_one {arr : List (Option HashSlot)} {k : Key}
    {j0 : Nat} {s0 : HashSlot} (h1 : countKey arr k = 1)
    (hc : cellAt arr j0 = some s0) (hm : matchesKey k (some s0) = true) :
    KeyAllVal arr k s0.value := by
  intro j s hcj hso hsk
  by_cases hjj : j = j0
  · subst hjj; rw [hcj] at hc
    cases hc; rfl
  · have hmj : matchesKey k (cellAt arr j) = true := by
      rw [hcj]; exact matchesKey_some.2 ⟨hso, hsk⟩
    have := countKey_pair hjj hmj (by rw [hc]; exact hm)
    omega

theorem hash_lt (key : Key) {size : Nat} (hs : 0 < size) :
    hash key size < size := by
  unfold hash; exact Nat.mod_lt _ hs

/-! ### Lemmas about the IEEE model of the load-factor test -/

theorem rne_exact {num den : Nat} (hden : 0 < den) (hdvd : den ∣ num) :
    rne num den = num / den := by
  have hr : num % den = 0 := Nat.mod_eq_zero_of_dvd hdvd
  rw [rne, hr]
  rw [if_neg (by omega), if_pos (by omega)]

theorem div_le_rne (num den : Nat) : num / den ≤ rne num den := by
  rw [rne]
  split_ifs <;> omega

theorem ilog2_le_self : ∀ (fuel n : Nat), 1 ≤ n → 2 ^ ilog2 fuel n ≤ n := by
  intro fuel
  induction fuel with
  | zero => intro n hn; simpa using hn
  | succ fuel ih =>
    intro n hn
    rw [ilog2]
    by_cases h2 : 2 ≤ n
    · rw [if_pos h2, pow_succ]
      have := ih (n / 2) (by omega)
      omega
    · rw [if_neg h2]
      simpa using hn

theorem ilog2_lt_self : ∀ (fuel n : Nat), n < 2 ^ fuel →
    n < 2 ^ (ilog2 fuel n + 1) := by
  intro fuel
  induction fuel with
  | zero =>
    intro n hn
    simp only [pow_zero] at hn
    rw [ilog2]
    omega
  | succ fuel ih =>
    intro n hn
    rw [ilog2]
    by_cases h2 : 2 ≤ n
    · rw [if_pos h2]
      have hrec := ih (n / 2) (by rw [pow_succ] at hn; omega)
      rw [pow_succ]
      omega
    · rw [if_neg h2]
      have : (2:Nat) ^ (0 + 1) = 2 := by norm_num
      omega

theorem ilog2_unique {fuel n x : Nat} (hfuel : n < 2 ^ fuel)
    (h1 : 2 ^ x ≤ n) (h2 : n < 2 ^ (x + 1)) : ilog2 fuel n = x := by
  have hpos : 1 ≤ n := by
    have := pow_pos (by norm_num : (0:ℕ) < 2) x
    omega
  have ha := ilog2_le_self fuel n hpos
  have hb := ilog2_lt_self fuel n hfuel
  rcases Nat.lt_trichotomy (ilog2 fuel n) x with hlt | heq | hgt
  · exfalso
    have := Nat.pow_le_pow_right (by norm_num : 1 ≤ 2)
      (by omega : ilog2 fuel n + 1 ≤ x)
    omega
  · exact heq
  · exfalso
    have := Nat.pow_le_pow_right (by norm_num : 1 ≤ 2)
      (by omega : x + 1 ≤ ilog2 fuel n)
    omega

theorem floatOfNat_small {n : Nat} (h : n ≤ 16777216) : floatOfNat n = n := by
  by_cases hlt : n < 16777216
  · rw [floatOfNat, if_pos hlt]
  · have hn : n = 16777216 := by omega
    subst hn
    decide

theorem floatOfNat_pos {n : Nat} (h : 1 ≤ n) : 1 ≤ floatOfNat n := by
  rw [floatOfNat]
  by_cases hlt : n < 16777216
  · rw [if_pos hlt]; exact h
  · rw [if_neg hlt]
    have h1 : 2 ^ ilog2 128 n ≤ n := ilog2_le_self 128 n (by omega)
    have h2 : 2 ^ (ilog2 128 n - 23) ≤ 2 ^ ilog2 128 n :=
      Nat.pow_le_pow_right (by norm_num) (by omega)
    have h3 : 1 ≤ n / 2 ^ (ilog2 128 n - 23) :=
      (Nat.one_le_div_iff (pow_pos (by norm_num) _)).2 (by omega)
    have h4 := div_le_rne n (2 ^ (ilog2 128 n - 23))
    have h5 : 0 < (2:Nat) ^ (ilog2 128 n - 23) := pow_pos (by norm_num) _
    calc 1 = 1 * 1 := rfl
    _ ≤ rne n (2 ^ (ilog2 128 n - 23)) * 2 ^ (ilog2 128 n - 23) :=
      Nat.mul_le_mul (by omega) (by omega)

theorem qExp_self {a : Nat} (ha : 0 < a) : qExp a a = 256 := by
  rw [qExp, Nat.mul_div_cancel_left _ ha]
  refine ilog2_unique ?_ (le_refl _) ?_
  · exact Nat.pow_lt_pow_right (by norm_num) (by omega)
  · exact Nat.pow_lt_pow_right (by norm_num) (by omega)

theorem qSig_self {a : Nat} (ha : 0 < a) : qSig a a = 2 ^ 23 := by
  rw [qSig, qExp_self ha, if_pos (by omega)]
  rw [show (279 - 256 : Nat) = 23 from rfl]
  rw [rne_exact ha ⟨2 ^ 23, rfl⟩]
  exact Nat.mul_div_cancel_left _ ha

theorem loadFactorExceeded_self {s : Nat} (hs : 0 < s) :
    loadFactorExceeded s s = true := by
  have hf : 1 ≤ floatOfNat s := floatOfNat_pos hs
  rw [loadFactorExceeded, if_neg (by simp only [or_self]; omega),
    qExp_self (by omega), qSig_self (by omega), if_pos (by omega)]
  decide

theorem loadFactorExceeded_pow2 {k c : Nat} (hk : k ≤ 24) (hc : c ≤ 2 ^ k) :
    (loadFactorExceeded c (2 ^ k) = true) ↔ 7 * 2 ^ k < 10 * c := by
  have hk2 : (2:Nat) ^ k ≤ 2 ^ 24 := Nat.pow_le_pow_right (by norm_num) hk
  have h24 : (2:Nat) ^ 24 = 16777216 := by norm_num
  by_cases hc0 : c = 0
  · subst hc0
    constructor
    · intro h
      rw [loadFactorExceeded, if_pos (Or.inl (by decide))] at h
      exact Bool.noConfusion h
    · intro h
      have := pow_pos (by norm_num : (0:ℕ) < 2) k
      omega
  · by_cases hclt : c < 16777216
    · have hc1 : 1 ≤ c := by omega
      have ha : floatOfNat c = c := floatOfNat_small (by omega)
      have hb : floatOfNat (2 ^ k) = 2 ^ k := floatOfNat_small (by omega)
      have hL1 := ilog2_le_self 25 c hc1
      have hL2 := ilog2_lt_self 25 c (by
        have : (2:Nat) ^ 25 = 33554432 := by norm_num
        omega)
      have hL24 : ilog2 25 c ≤ 23 := by
        by_contra hcon
        have := Nat.pow_le_pow_right (by norm_num : 1 ≤ 2)
          (by omega : 24 ≤ ilog2 25 c)
        omega
      have hLk : ilog2 25 c ≤ k := by
        by_contra hcon
        have hle := Nat.pow_le_pow_right (by norm_num : 1 ≤ 2)
          (by omega : k + 1 ≤ ilog2 25 c)
        have hks : (2:Nat) ^ (k + 1) = 2 ^ k * 2 := pow_succ 2 k
        omega
      have h256 : (2:Nat) ^ 256 = 2 ^ (256 - k) * 2 ^ k := by
        rw [← pow_add]
        congr 1
        omega
      have hdiv : c * 2 ^ 256 / 2 ^ k = c * 2 ^ (256 - k) := by
        rw [h256, ← Nat.mul_assoc]
        exact Nat.mul_div_cancel (c * 2 ^ (256 - k)) (pow_pos (by norm_num) k)
      have hqe : qExp c (2 ^ k) = ilog2 25 c + (256 - k) := by
        rw [qExp, hdiv]
        refine ilog2_unique ?_ ?_ ?_
        · have e1 : c < 2 ^ 25 := by
            have : (2:Nat) ^ 25 = 33554432 := by norm_num
            omega
          have e2 : (2:Nat) ^ (256 - k) ≤ 2 ^ 256 :=
            Nat.pow_le_pow_right (by norm_num) (by omega)
          calc c * 2 ^ (256 - k) ≤ c * 2 ^ 256 :=
            Nat.mul_le_mul_left c e2
          _ < 2 ^ 25 * 2 ^ 256 :=
            (Nat.mul_lt_mul_right (pow_pos (by norm_num) 256)).2 e1
          _ = 2 ^ 281 := by rw [← pow_add]
          _ < 2 ^ 400 := Nat.pow_lt_pow_right (by norm_num) (by omega)
        · rw [pow_add]
          exact Nat.mul_le_mul_right _ hL1
        · rw [show ilog2 25 c + (256 - k) + 1 = (ilog2 25 c + 1) + (256 - k)
            by omega, pow_add]
          exact (Nat.mul_lt_mul_right (pow_pos (by norm_num) _)).2 hL2
      have hqe_le : qExp c (2 ^ k) ≤ 279 := by rw [hqe]; omega
      have hqe_ge : 227 ≤ qExp c (2 ^ k) := by rw [hqe]; omega
      have h279 : 279 - qExp c (2 ^ k) = (23 - ilog2 25 c) + k := by
        rw [hqe]; omega
      have hsig : qSig c (2 ^ k) = c * 2 ^ (23 - ilog2 25 c) := by
        rw [qSig, if_pos hqe_le, h279, pow_add, ← Nat.mul_assoc]
        rw [rne_exact (pow_pos (by norm_num) k)
          ⟨c * 2 ^ (23 - ilog2 25 c), by ring⟩]
        exact Nat.mul_div_cancel (c * 2 ^ (23 - ilog2 25 c))
          (pow_pos (by norm_num) k)
      rw [loadFactorExceeded, ha, hb, if_neg (by omega), if_pos hqe_ge,
        hsig, hqe, decide_eq_true_eq]
      have hexp : (ilog2 25 c + (256 - k)) - 227 = (29 - k) + ilog2 25 c := by
        omega
      rw [hexp]
      have hcollapse : c * 2 ^ (23 - ilog2 25 c) *
          2 ^ ((29 - k) + ilog2 25 c) = c * 2 ^ (52 - k) := by
        rw [Nat.mul_assoc, ← pow_add]
        have hsum : (23 - ilog2 25 c) + ((29 - k) + ilog2 25 c) = 52 - k := by
          omega
        rw [hsum]
      rw [hcollapse]
      interval_cases k <;> (norm_num [doubleOfPoint7]; omega)
    · have hc16 : c = 16777216 := by omega
      have hk16 : (2:Nat) ^ k = 16777216 := by omega
      rw [hc16, hk16]
      constructor
      · intro _; omega
      · intro _; exact loadFactorExceeded_self (by norm_num)

/-- Master lemma for the reinsertion loop of `hashTableResize`: with room in
the new array the loop terminates, preserves the number of occupied slots
and the per-key entry counts, does not disturb keyed probes already
established in the accumulator, and makes every key of the remaining old
slots reachable by its own probe sequence, carrying its stored value. -/
theorem reinsert_master {newSize : Nat} (hs : 0 < newSize) :
    ∀ (rest acc : List (Option HashSlot)),
    acc.length = newSize →
    countOccupied acc + countOccupied rest < newSize →
    ∃ res, reinsertLoop newSize rest acc = some res ∧
      res.length = newSize ∧
      countOccupied res = countOccupied acc + countOccupied rest ∧
      (∀ k, countKey res k = countKey acc k + countKey rest k) ∧
      (∀ k v i, probe acc newSize k newSize (hash k newSize) = some i →
        cellAt acc i = some ⟨k, v, true⟩ →
        probe res newSize k newSize (hash k newSize) = some i ∧
        cellAt res i = some ⟨k, v, true⟩) ∧
      (∀ k v, KeyAllVal rest k v → hasKey rest k = true →
        hasKey acc k = false →
        ∃ i, probe res newSize k newSize (hash k newSize) = some i ∧
          cellAt res i = some ⟨k, v, true⟩) := by
  intro rest
  induction rest with
  | nil =>
    intro acc hlen hsum
    refine ⟨acc, rfl, hlen, by simp [countOccupied], ?_, ?_, ?_⟩
    · intro k; simp [countKey]
    · intro k v i hp hc; exact ⟨hp, hc⟩
    · intro k v _ hk _; simp [hasKey] at hk
  | cons c rest ih =>
    intro acc hlen hsum
    by_cases hocc : isOcc c = true
    · -- occupied head slot: it is reinserted at the first free position
      obtain ⟨s, rfl⟩ : ∃ s, c = some s := by
        cases c with
        | none => simp [isOcc] at hocc
        | some s => exact ⟨s, rfl⟩
      have ho : s.occupied = true := hocc
      have hcons : countOccupied (some s :: rest) = countOccupied rest + 1 := by
        simp [countOccupied, List.countP_cons, isOcc, ho]
      have hroomacc : countOccupied acc < newSize := by omega
      obtain ⟨p, hp⟩ :=
        probeFree_some_of_room hs hlen (hash_lt s.key hs) hroomacc
      have hplt : p < newSize := probeFree_stop_lt hs (hash_lt s.key hs) hp
      have hpfree : isOcc (cellAt acc p) = false := probeFree_stop_spec hp
      have hplen : p < acc.length := by rw [hlen]; exact hplt
      have hlen' :
          (acc.set p (some ⟨s.key, s.value, true⟩)).length = newSize := by
        rw [List.length_set]; exact hlen
      have hco' :
          countOccupied (acc.set p (some ⟨s.key, s.value, true⟩)) =
            countOccupied acc + 1 :=
        countOccupied_set_free hplen hpfree (by simp [isOcc])
      have hsum' :
          countOccupied (acc.set p (some ⟨s.key, s.value, true⟩)) +
            countOccupied rest < newSize := by
        rw [hco']; omega
      obtain ⟨res, heq, hlenr, hcor, hckr, hstab, hfresh⟩ :=
        ih (acc.set p (some ⟨s.key, s.value, true⟩)) hlen' hsum'
      refine ⟨res, ?_, hlenr, ?_, ?_, ?_, ?_⟩
      · rw [reinsertLoop, if_pos ho]
        simp only [hp]
        exact heq
      · rw [hcor, hco', hcons]; omega
      · intro k
        rw [hckr k,
          countKey_set_free (some ⟨s.key, s.value, true⟩) hplen
            (matchesKey_false_of_free hpfree)]
        have hmk : matchesKey k (some (⟨s.key, s.value, true⟩ : HashSlot)) =
            matchesKey k (some s) := by
          simp [matchesKey, ho]
        have hck : countKey (some s :: rest) k =
            countKey rest k + (if matchesKey k (some s) = true then 1 else 0) := by
          simp [countKey, List.countP_cons]
        rw [hmk, hck]
        generalize (if matchesKey k (some s) = true then 1 else 0) = w
        omega
      · intro k v i hpi hci
        have hm : matchesKey k (cellAt acc i) = true := by
          rw [hci]; exact matchesKey_some.2 ⟨rfl, rfl⟩
        have hpi' := probe_set_other (some ⟨s.key, s.value, true⟩) hpfree hpi hm
        have hne : p ≠ i := by
          intro he; rw [he, hci] at hpfree; simp [isOcc] at hpfree
        have hci' : cellAt (acc.set p (some ⟨s.key, s.value, true⟩)) i =
            some ⟨k, v, true⟩ := by
          rw [cellAt_set_ne _ hne]; exact hci
        exact hstab k v i hpi' hci'
      · intro k v hall hhk hnacc
        by_cases hks : s.key = k
        · have hv : s.value = v := hall 0 s rfl ho hks
          have hceq : (⟨s.key, s.value, true⟩ : HashSlot) = ⟨k, v, true⟩ := by
            rw [hks, hv]
          have hps : probeFree acc newSize newSize (hash k newSize) = some p := by
            rw [← hks]; exact hp
          have hpp : probe (acc.set p (some ⟨s.key, s.value, true⟩)) newSize k
              newSize (hash k newSize) = some p := by
            rw [hceq]; exact probeFree_to_probe v hnacc hps
          have hcp : cellAt (acc.set p (some ⟨s.key, s.value, true⟩)) p =
              some ⟨k, v, true⟩ := by
            rw [cellAt_set_eq _ hplen, hceq]
          exact ⟨p, hstab k v p hpp hcp⟩
        · have hms : matchesKey k (some s) = false := by
            simp [matchesKey, hks]
          have hhkrest : hasKey rest k = true := by
            rw [hasKey, List.any_cons, hms, Bool.false_or] at hhk
            exact hhk
          have hallrest := keyAllVal_tail hall
          have hnacc' :
              hasKey (acc.set p (some ⟨s.key, s.value, true⟩)) k = false := by
            have hc0 := @countKey_set_free acc p k
              (some ⟨s.key, s.value, true⟩) hplen
              (matchesKey_false_of_free hpfree)
            have hm0 : matchesKey k (some (⟨s.key, s.value, true⟩ : HashSlot)) =
                false := by simp [matchesKey, hks]
            rw [hm0] at hc0
            simp only [Bool.false_eq_true, if_false, Nat.add_zero] at hc0
            have hz := countKey_eq_zero_of_not_hasKey hnacc
            by_contra hby
            have := hasKey_iff_countKey_pos.1 (Bool.of_not_eq_false hby)
            omega
          exact hfresh k v hallrest hhkrest hnacc'
    · -- NULL or unoccupied head slot: skipped by the loop
      have hco : countOccupied (c :: rest) = countOccupied rest := by
        simp [countOccupied, List.countP_cons, hocc]
      have hck : ∀ k, countKey (c :: rest) k = countKey rest k := by
        intro k
        simp [countKey, List.countP_cons,
          matchesKey_false_of_free (Bool.of_not_eq_true hocc)]
      have hhk : ∀ k, hasKey (c :: rest) k = hasKey rest k := by
        intro k
        rw [hasKey, List.any_cons,
          matchesKey_false_of_free (Bool.of_not_eq_true hocc), Bool.false_or]
        rfl
      have hsum' : countOccupied acc + countOccupied rest < newSize := by
        rw [hco] at hsum; exact hsum
      obtain ⟨res, heq, hlenr, hcor, hckr, hstab, hfresh⟩ := ih acc hlen hsum'
      refine ⟨res, ?_, hlenr, ?_, ?_, hstab, ?_⟩
      · cases c with
        | none => rw [reinsertLoop]; exact heq
        | some s =>
          have ho : ¬s.occupied = true := by simpa [isOcc] using hocc
          rw [reinsertLoop, if_neg ho]; exact heq
      · rw [hcor, hco]
      · intro k; rw [hckr k, hck k]
      · intro k v hall hhkc hnacc
        exact hfresh k v (keyAllVal_tail hall) (by rw [← hhk k]; exact hhkc)
          hnacc

/-- Specification of a successful `hashTableResize`: doubled array, counters
preserved, per-key entry counts preserved, and every key of the old table
(all of whose entries carry value `v`) reachable in the new array with `v`. -/
theorem resize_spec {t : HashTable} (hs : 0 < t.size)
    (hlen : t.table.length = t.size) :
    ∃ res, hashTableResize true t =
        .ok { size := t.size * 2, elementCount := t.elementCount,
              table := res } ∧
      res.length = t.size * 2 ∧
      countOccupied res = countOccupied t.table ∧
      (∀ k, countKey res k = countKey t.table k) ∧
      (∀ k v, KeyAllVal t.table k v → hasKey t.table k = true →
        ∃ i, probe res (t.size * 2) k (t.size * 2) (hash k (t.size * 2)) =
            some i ∧
          cellAt res i = some ⟨k, v, true⟩) := by
  have h2 : 0 < t.size * 2 := by omega
  have hlenrep :
      (List.replicate (t.size * 2) (none : Option HashSlot)).length =
        t.size * 2 := by simp
  have hrep0 :
      countOccupied (List.replicate (t.size * 2) (none : Option HashSlot)) =
        0 := by
    rw [countOccupied, List.countP_eq_zero]
    intro a ha
    rw [List.eq_of_mem_replicate ha]
    simp [isOcc]
  have hkrep :
      ∀ k, countKey (List.replicate (t.size * 2) (none : Option HashSlot)) k =
        0 := by
    intro k
    rw [countKey, List.countP_eq_zero]
    intro a ha
    rw [List.eq_of_mem_replicate ha]
    simp [matchesKey]
  have hhkrep :
      ∀ k, hasKey (List.replicate (t.size * 2) (none : Option HashSlot)) k =
        false := by
    intro k
    by_contra hby
    have := hasKey_iff_countKey_pos.1 (Bool.of_not_eq_false hby)
    rw [hkrep k] at this
    omega
  have hsum :
      countOccupied (List.replicate (t.size * 2) (none : Option HashSlot)) +
        countOccupied t.table < t.size * 2 := by
    have := countOccupied_le_length t.table
    omega
  obtain ⟨res, heq, hlenr, hcor, hckr, _, hfresh⟩ :=
    reinsert_master h2 t.table
      (List.replicate (t.size * 2) (none : Option HashSlot)) hlenrep hsum
  refine ⟨res, ?_, hlenr, ?_, ?_, ?_⟩
  · rw [hashTableResize]
    simp only [if_true, heq]
  · rw [hcor, hrep0]; omega
  · intro k; rw [hckr k, hkrep k]; omega
  · intro k v hall hhk
    exact hfresh k v hall hhk (hhkrep k)

/-- Specification of a successful `hashTableSet` with working allocation on
a valid table: the load-factor stage yields a table `t1` (the original, or
the doubled rehash of it), the probe stops at some in-range slot `i`, and
the result overwrites slot `i` with the new entry, incrementing
`elementCount` exactly when slot `i` was not occupied. -/
theorem set_spec {t : HashTable} {k : Key} {v : Nat}
    (hval : ValidTable t) (hk : k ≠ []) (hv : v ≠ 0) :
    ∃ t1 i,
      (if loadFactorExceeded t.elementCount t.size then hashTableResize true t
       else OpResult.ok t) = .ok t1 ∧
      ValidTable t1 ∧
      t1.elementCount = t.elementCount ∧
      (∀ k', countKey t1.table k' = countKey t.table k') ∧
      countOccupied t1.table < t1.size ∧
      ((¬loadFactorExceeded t.elementCount t.size = true) ∧ t1 = t ∨
        (loadFactorExceeded t.elementCount t.size = true ∧
         t1.size = t.size * 2 ∧
         ∀ k' v', KeyAllVal t.table k' v' → hasKey t.table k' = true →
           ∃ j, probe t1.table t1.size k' t1.size (hash k' t1.size) =
               some j ∧
             cellAt t1.table j = some ⟨k', v', true⟩)) ∧
      probe t1.table t1.size k t1.size (hash k t1.size) = some i ∧
      i < t1.size ∧
      hashTableSet true t k v =
        .ok { size := t1.size,
              elementCount := if isOcc (cellAt t1.table i) = true
                then t1.elementCount else t1.elementCount + 1,
              table := t1.table.set i (some ⟨k, v, true⟩) } := by
  obtain ⟨hs, hlen, hcnt⟩ := hval
  have hload :
      ∃ t1,
        (if loadFactorExceeded t.elementCount t.size then
          hashTableResize true t
         else OpResult.ok t) = .ok t1 ∧
        ValidTable t1 ∧ t1.elementCount = t.elementCount ∧
        (∀ k', countKey t1.table k' = countKey t.table k') ∧
        countOccupied t1.table < t1.size ∧
        ((¬loadFactorExceeded t.elementCount t.size = true) ∧ t1 = t ∨
          (loadFactorExceeded t.elementCount t.size = true ∧
           t1.size = t.size * 2 ∧
           ∀ k' v', KeyAllVal t.table k' v' → hasKey t.table k' = true →
             ∃ j, probe t1.table t1.size k' t1.size (hash k' t1.size) =
                 some j ∧
               cellAt t1.table j = some ⟨k', v', true⟩)) := by
    by_cases hl : loadFactorExceeded t.elementCount t.size = true
    · obtain ⟨res, heq, hlenr, hcor, hckr, hreach⟩ := resize_spec hs hlen
      refine ⟨{ size := t.size * 2, elementCount := t.elementCount,
                table := res },
        by rw [if_pos hl]; exact heq,
        ⟨by show 0 < t.size * 2; omega, hlenr, ?_⟩,
        rfl, hckr, ?_, Or.inr ⟨hl, rfl, hreach⟩⟩
      · show countOccupied res = t.elementCount
        rw [hcor]; exact hcnt
      · show countOccupied res < t.size * 2
        have := countOccupied_le_length t.table
        omega
    · refine ⟨t, by rw [if_neg hl], ⟨hs, hlen, hcnt⟩, rfl, fun _ => rfl,
        ?_, Or.inl ⟨hl, rfl⟩⟩
      -- the table has a free slot: a full table would make the float load
      -- test fire (the quotient is exactly 1 > 0.7)
      have hle : countOccupied t.table ≤ t.size := by
        rw [← hlen]; exact countOccupied_le_length t.table
      rcases Nat.lt_or_ge (countOccupied t.table) t.size with h | h
      · exact h
      · exfalso
        apply hl
        have heqc : t.elementCount = t.size := by omega
        rw [heqc]
        exact loadFactorExceeded_self (by omega)
  obtain ⟨t1, hls, hval1, hc1, hck1, hroom, hdisj⟩ := hload
  obtain ⟨i, hp⟩ := probe_some_of_room hval1.1 hval1.2.1
    (hash_lt k hval1.1) hroom
  have hilt : i < t1.size := probe_stop_lt hval1.1 (hash_lt k hval1.1) hp
  refine ⟨t1, i, hls, hval1, hc1, hck1, hroom, hdisj, hp, hilt, ?_⟩
  rw [hashTableSet, if_neg (by omega : ¬t.size = 0), if_neg hv, if_neg hk]
  simp only [hls, hp]
  cases hc : cellAt t1.table i with
  | none => simp [hc, isOcc]
  | some s =>
    by_cases ho : s.occupied = true
    · simp [hc, isOcc, ho]
    · simp [hc, isOcc, ho]

/-- A lookup on a table whose probe stops at a live matching slot returns
the stored value. -/
theorem get_found {t : HashTable} {k : Key} {v : Nat} {i : Nat}
    (hcnt : ¬t.elementCount = 0) (hk : ¬k = [])
    (hp : probe t.table t.size k t.size (hash k t.size) = some i)
    (hc : cellAt t.table i = some ⟨k, v, true⟩) :
    hashTableGet t k = .found v := by
  rw [hashTableGet, if_neg hcnt, if_neg hk]
  simp only [hp, hc]
  simp

/-! ### Claim theorems -/

/-- C1 (code bug): deleted slots are NOT transparent to probing.
`hashTableDelete` frees the matching slot and sets its pointer to NULL
(source line 218) instead of leaving a tombstone, and a NULL slot terminates
every probe loop.  Concretely: keys "d" = `[100]` and "h" = `[104]` both
hash to index 3 of a 4-slot table; after inserting both (the second lands in
slot 0 by linear probing) and deleting "d", the lookup and membership test
for "h" fail even though "h" is still stored in slot 0. -/
theorem C1_delete_breaks_other_probes :
    initHashTable true 4 = some ⟨4, 0, [none, none, none, none]⟩ ∧
    hash [100] 4 = 3 ∧ hash [104] 4 = 3 ∧ [100] ≠ [104] ∧
    hashTableSet true ⟨4, 0, [none, none, none, none]⟩ [100] 1 =
      .ok ⟨4, 1, [none, none, none, some ⟨[100], 1, true⟩]⟩ ∧
    hashTableSet true ⟨4, 1, [none, none, none, some ⟨[100], 1, true⟩]⟩
        [104] 2 =
      .ok ⟨4, 2, [some ⟨[104], 2, true⟩, none, none,
                  some ⟨[100], 1, true⟩]⟩ ∧
    hashTableGet ⟨4, 2, [some ⟨[104], 2, true⟩, none, none,
                         some ⟨[100], 1, true⟩]⟩ [104] = .found 2 ∧
    hashTableDelete ⟨4, 2, [some ⟨[104], 2, true⟩, none, none,
                            some ⟨[100], 1, true⟩]⟩ [100] =
      .ok ⟨4, 1, [some ⟨[104], 2, true⟩, none, none, none]⟩ ∧
    hashTableGet ⟨4, 1, [some ⟨[104], 2, true⟩, none, none, none]⟩ [104] =
      .notFound ∧
    hashTableHas ⟨4, 1, [some ⟨[104], 2, true⟩, none, none, none]⟩ [104] =
      some false := by
  decide

/-- C2 (code bug): on resize-allocation failure the table does not remain in
its prior valid state — `hashTableResize` calls `hashTableFree(&hashTable)`
(source line 99), destroying the whole table, and `hashTableSet` then goes
on dereferencing the freed handle.  Concretely: a valid 4-slot table holding
3 entries (load 3/4 > 0.7) with a failing allocator. -/
theorem C2_resize_failure_destroys_table :
    ValidTable ⟨4, 3, [some ⟨[104], 2, true⟩, some ⟨[101], 3, true⟩, none,
                       some ⟨[100], 1, true⟩]⟩ ∧
    10 * 3 > 7 * 4 ∧
    hashTableSet false ⟨4, 3, [some ⟨[104], 2, true⟩, some ⟨[101], 3, true⟩,
                               none, some ⟨[100], 1, true⟩]⟩ [102] 9 =
      .freed ∧
    hashTableSet false ⟨4, 3, [some ⟨[104], 2, true⟩, some ⟨[101], 3, true⟩,
                               none, some ⟨[100], 1, true⟩]⟩ [102] 9 ≠
      .ok ⟨4, 3, [some ⟨[104], 2, true⟩, some ⟨[101], 3, true⟩, none,
                  some ⟨[100], 1, true⟩]⟩ := by
  decide

/-- C5 (code bug): the key-uniqueness invariant is violated by a reachable
operation sequence.  After `init 4; set "d"; set "h"; delete "d"`
(`hash "d" = hash "h" = 3`), the slot freed by the delete breaks the probe
chain of "h", so `set "h"` no longer finds the live copy in slot 0 and
inserts a second copy into slot 3: key `[104]` then occupies two distinct
slots. -/
theorem C5_key_stored_in_two_slots :
    initHashTable true 4 = some ⟨4, 0, [none, none, none, none]⟩ ∧
    hashTableSet true ⟨4, 0, [none, none, none, none]⟩ [100] 1 =
      .ok ⟨4, 1, [none, none, none, some ⟨[100], 1, true⟩]⟩ ∧
    hashTableSet true ⟨4, 1, [none, none, none, some ⟨[100], 1, true⟩]⟩
        [104] 2 =
      .ok ⟨4, 2, [some ⟨[104], 2, true⟩, none, none,
                  some ⟨[100], 1, true⟩]⟩ ∧
    hashTableDelete ⟨4, 2, [some ⟨[104], 2, true⟩, none, none,
                            some ⟨[100], 1, true⟩]⟩ [100] =
      .ok ⟨4, 1, [some ⟨[104], 2, true⟩, none, none, none]⟩ ∧
    hashTableSet true ⟨4, 1, [some ⟨[104], 2, true⟩, none, none, none]⟩
        [104] 5 =
      .ok ⟨4, 2, [some ⟨[104], 2, true⟩, none, none,
                  some ⟨[104], 5, true⟩]⟩ ∧
    cellAt [some (⟨[104], 2, true⟩ : HashSlot), none, none,
            some ⟨[104], 5, true⟩] 0 = some ⟨[104], 2, true⟩ ∧
    cellAt [some (⟨[104], 2, true⟩ : HashSlot), none, none,
            some ⟨[104], 5, true⟩] 3 = some ⟨[104], 5, true⟩ ∧
    countKey [some (⟨[104], 2, true⟩ : HashSlot), none, none,
              some ⟨[104], 5, true⟩] [104] = 2 := by
  decide

/-- C3 counterexample: the code's growth trigger compares the PRE-insert
`elementCount` (not `elementCount + 1`) against the threshold.  On a valid
4-slot table with 2 entries, `(count + 1) / capacity = 3/4 > 0.7`, so the
claim requires growth, but the code leaves the capacity at 4. -/
theorem C3_counterexample :
    ValidTable ⟨4, 2, [some ⟨[104], 2, true⟩, none, none,
                       some ⟨[100], 1, true⟩]⟩ ∧
    10 * (2 + 1) > 7 * 4 ∧
    hashTableSet true ⟨4, 2, [some ⟨[104], 2, true⟩, none, none,
                              some ⟨[100], 1, true⟩]⟩ [101] 3 =
      .ok ⟨4, 3, [some ⟨[104], 2, true⟩, some ⟨[101], 3, true⟩, none,
                  some ⟨[100], 1, true⟩]⟩ := by
  decide

/-- C6 counterexample: with `N = 1`, inserting one key into a table of
initial capacity 1 leaves capacity 1 (the pre-insert load check sees
`0/1 ≤ 0.7`), and `size(t) ≥ N / 0.7` — that is, `7 · size ≥ 10 · N` —
fails: `7 < 10`. -/
theorem C6_counterexample :
    initHashTable true 1 = some ⟨1, 0, [none]⟩ ∧
    setAll ⟨1, 0, [none]⟩ [([97], 1)] =
      .ok ⟨1, 1, [some ⟨[97], 1, true⟩]⟩ ∧
    ¬7 * hashTableSize (some ⟨1, 1, [some ⟨[97], 1, true⟩]⟩) ≥ 10 * 1 := by
  decide

/-- C9: the utility accessors tolerate a NULL handle — `hashTableSize` and
`hashTableCount` print a diagnostic and return 0 instead of failing, and on
a live handle they return the maintained counters. -/
theorem C9_null_handle_size_count :
    hashTableSize none = 0 ∧ hashTableCount none = 0 ∧
    (∀ t : HashTable, hashTableSize (some t) = t.size) ∧
    (∀ t : HashTable, hashTableCount (some t) = t.elementCount) :=
  ⟨rfl, rfl, fun _ => rfl, fun _ => rfl⟩

/-- C10: teardown is defensive — `hashTableFree` is a no-op on a NULL
handle, a NULL bucket array, or size 0; a successful teardown zeroes the
counters (the struct state at the final `free`) and NULLs the caller's
pointer, so a repeated teardown through the same pointer variable is
harmless. -/
theorem C10_free_defensive :
    hashTableFree none = none ∧
    (∀ t : HashTable, t.table = [] ∨ t.size = 0 →
      hashTableFree (some t) = some t) ∧
    (∀ t : HashTable, t.table ≠ [] → t.size ≠ 0 →
      hashTableFree (some t) = none ∧
      (freeFinalStruct t).size = 0 ∧ (freeFinalStruct t).elementCount = 0) ∧
    (∀ p : Option HashTable,
      hashTableFree (hashTableFree p) = hashTableFree p) := by
  refine ⟨rfl, ?_, ?_, ?_⟩
  · intro t h
    rw [hashTableFree, if_pos h]
  · intro t h1 h2
    rw [hashTableFree, if_neg (not_or.mpr ⟨h1, h2⟩)]
    exact ⟨rfl, rfl, rfl⟩
  · intro p
    cases p with
    | none => rfl
    | some t =>
      rw [hashTableFree]
      by_cases h : t.table = [] ∨ t.size = 0
      · rw [if_pos h, hashTableFree, if_pos h]
      · rw [if_neg h]
        rfl

/-- Witness for C10 at concrete handles: a struct with size 0 is left
alone; a live 1-slot table is torn down and the pointer NULLed. -/
theorem C10_free_defensive_witness :
    hashTableFree (some ⟨0, 0, [none]⟩) = some ⟨0, 0, [none]⟩ ∧
    hashTableFree (some ⟨1, 0, [none]⟩) = none :=
  ⟨C10_free_defensive.2.1 ⟨0, 0, [none]⟩ (Or.inr rfl),
   (C10_free_defensive.2.2.1 ⟨1, 0, [none]⟩ (by decide) (by decide)).1⟩

theorem specWordsFnv_eq_foldl :
    ∀ (bs : Key) (acc : Nat), bs.foldl fnv1aStep acc = specWordsFnv acc bs := by
  intro bs
  induction bs with
  | nil => intro acc; rfl
  | cons b bs ih =>
    intro acc
    rw [List.foldl_cons, specWordsFnv]
    exact ih _

/-- C8: the source `hash` computes exactly the 32-bit FNV-1a digest
described by the spec (offset basis 2166136261, per byte XOR then multiply
by 16777619 with 32-bit wraparound), reduced modulo the capacity, and the
result lies in `[0, capacity)`. -/
theorem C8_hash_is_fnv1a (key : Key) (capacity : Nat) (_hk : key ≠ [])
    (_hg : GoodKey key) (hcap : 0 < capacity) :
    hash key capacity = specWordsHash key capacity ∧
    hash key capacity < capacity := by
  constructor
  · rw [hash, specWordsHash, fnv1a, specWordsFnv_eq_foldl]
  · exact hash_lt key hcap

/-- Witness for C8 on the concrete key "hi" = `[104, 105]` and capacity 7. -/
theorem C8_hash_is_fnv1a_witness :
    hash [104, 105] 7 = specWordsHash [104, 105] 7 ∧
    hash [104, 105] 7 < 7 :=
  C8_hash_is_fnv1a [104, 105] 7 (by decide) (by decide) (by decide)

/-- C4: round-trip — on a valid table, a successful `set(t, k, v)` for a
non-empty key and non-null value followed immediately by `get(t, k)` returns
exactly `v`. -/
theorem C4_set_get_roundtrip (t t' : HashTable) (k : Key) (v : Nat)
    (hval : ValidTable t) (hk : k ≠ []) (hv : v ≠ 0)
    (h : hashTableSet true t k v = .ok t') :
    hashTableGet t' k = .found v := by
  obtain ⟨t1, i, _hls, hval1, _hc1, _hck1, _hroom, _hdisj, hp, hilt, heq⟩ :=
    set_spec hval hk hv
  rw [heq] at h
  injection h with h'
  subst h'
  refine @get_found _ k v i ?_ hk ?_ ?_
  · show ¬(if isOcc (cellAt t1.table i) = true then t1.elementCount
      else t1.elementCount + 1) = 0
    by_cases hoc : isOcc (cellAt t1.table i) = true
    · rw [if_pos hoc]
      have hpos := countOccupied_pos_of_cellAt hoc
      have := hval1.2.2
      omega
    · rw [if_neg hoc]; omega
  · show probe (t1.table.set i (some ⟨k, v, true⟩)) t1.size k t1.size
      (hash k t1.size) = some i
    exact probe_set_match v hp
  · show cellAt (t1.table.set i (some ⟨k, v, true⟩)) i = some ⟨k, v, true⟩
    exact cellAt_set_eq _ (by rw [hval1.2.1]; exact hilt)

/-- Witness for C4: inserting "d" = `[100]` into an empty 4-slot table and
reading it back. -/
theorem C4_set_get_roundtrip_witness :
    hashTableGet ⟨4, 1, [none, none, none, some ⟨[100], 1, true⟩]⟩ [100] =
      .found 1 :=
  C4_set_get_roundtrip ⟨4, 0, [none, none, none, none]⟩
    ⟨4, 1, [none, none, none, some ⟨[100], 1, true⟩]⟩ [100] 1
    (by decide) (by decide) (by decide) (by decide)

/-- C3 amended: on a valid table, `set` with a non-empty key and non-null
value succeeds (allocation permitting), and it doubles the capacity exactly
when the code's load test fires — the IEEE float comparison
`(float)elementCount / (float)size > 0.7` evaluated on the PRE-insert
count, NOT counting the pending insert as the claim stated; otherwise the
capacity is unchanged.  On power-of-two capacities up to `2^24` holding at
most `capacity` entries, this float test coincides with the exact
comparison `10 · elementCount > 7 · capacity` (at larger states the float
rounding genuinely deviates from the exact ratio). -/
theorem C3_growth_trigger_amended (t : HashTable) (k : Key) (v : Nat)
    (hval : ValidTable t) (hk : k ≠ []) (hv : v ≠ 0) :
    (∃ t', hashTableSet true t k v = .ok t' ∧
      (loadFactorExceeded t.elementCount t.size = true →
        t'.size = t.size * 2) ∧
      (loadFactorExceeded t.elementCount t.size = false →
        t'.size = t.size)) ∧
    (∀ kp c : Nat, kp ≤ 24 → c ≤ 2 ^ kp →
      (loadFactorExceeded c (2 ^ kp) = true ↔ 7 * 2 ^ kp < 10 * c)) := by
  constructor
  · obtain ⟨t1, i, _hls, _hval1, _hc1, _hck1, _hroom, hdisj, _hp, _hilt,
      heq⟩ := set_spec hval hk hv
    refine ⟨_, heq, ?_, ?_⟩
    · intro hl
      show t1.size = t.size * 2
      rcases hdisj with ⟨hnl, _⟩ | ⟨_, h2, _⟩
      · exact absurd hl hnl
      · exact h2
    · intro hnl
      show t1.size = t.size
      rcases hdisj with ⟨_, rfl⟩ | ⟨hl, _, _⟩
      · rfl
      · rw [hl] at hnl; exact Bool.noConfusion hnl
  · intro kp c hkp hc
    exact loadFactorExceeded_pow2 hkp hc

/-- Witness for C3 amended at a table just past the threshold: load 3/4
fires the float test and the capacity doubles to 8. -/
theorem C3_growth_trigger_amended_witness :
    (∃ t', hashTableSet true ⟨4, 3, [some ⟨[104], 2, true⟩,
        some ⟨[101], 3, true⟩, none, some ⟨[100], 1, true⟩]⟩ [102] 9 =
        .ok t' ∧
      (loadFactorExceeded 3 4 = true → t'.size = 4 * 2) ∧
      (loadFactorExceeded 3 4 = false → t'.size = 4)) ∧
    (∀ kp c : Nat, kp ≤ 24 → c ≤ 2 ^ kp →
      (loadFactorExceeded c (2 ^ kp) = true ↔ 7 * 2 ^ kp < 10 * c)) :=
  C3_growth_trigger_amended ⟨4, 3, [some ⟨[104], 2, true⟩,
    some ⟨[101], 3, true⟩, none, some ⟨[100], 1, true⟩]⟩ [102] 9
    (by decide) (by decide) (by decide)

/-- Inductive core for C6: inserting pairwise-distinct fresh keys with
working allocation never fails, counts every key, and maintains the
post-insert load bound `10 · elementCount ≤ 7 · size + 10`.  The run is
kept below `11744051` total entries: capacities then stay powers of two up
to `2^24`, where the float load test agrees with the exact threshold. -/
theorem setAll_spec :
    ∀ (ps : List (Key × Nat)) (t : HashTable),
    ValidTable t →
    (∃ kp, kp ≤ 24 ∧ t.size = 2 ^ kp) →
    t.elementCount + ps.length ≤ 11744051 →
    10 * t.elementCount ≤ 7 * t.size + 10 →
    (∀ p ∈ ps, p.1 ≠ [] ∧ p.2 ≠ 0) →
    (∀ p ∈ ps, hasKey t.table p.1 = false) →
    ps.Pairwise (fun p q => p.1 ≠ q.1) →
    ∃ tf, setAll t ps = .ok tf ∧ ValidTable tf ∧
      tf.elementCount = t.elementCount + ps.length ∧
      10 * tf.elementCount ≤ 7 * tf.size + 10 := by
  intro ps
  induction ps with
  | nil =>
    intro t hval _ _ hload _ _ _
    exact ⟨t, rfl, hval, by simp, hload⟩
  | cons p ps ih =>
    intro t hval hpow htot hload hargs hfresh hpair
    obtain ⟨k, v⟩ := p
    obtain ⟨kp, hkp, hsz⟩ := hpow
    have hs1 : 0 < t.size := hval.1
    have hk : k ≠ [] := (hargs (k, v) (List.mem_cons_self _ _)).1
    have hv : v ≠ 0 := (hargs (k, v) (List.mem_cons_self _ _)).2
    have hcs : t.elementCount ≤ t.size := by omega
    -- on this power-of-two capacity the float test is the exact threshold
    have hagree : loadFactorExceeded t.elementCount t.size = true ↔
        7 * t.size < 10 * t.elementCount := by
      have hiff := loadFactorExceeded_pow2 hkp
        (show t.elementCount ≤ 2 ^ kp by rw [← hsz]; exact hcs)
      rw [← hsz] at hiff
      exact hiff
    obtain ⟨t1, i, _hls, hval1, hc1, hck1, _hroom, hdisj, hp, hilt, heq⟩ :=
      set_spec hval hk hv
    have hnew : countKey t.table k = 0 :=
      countKey_eq_zero_of_not_hasKey (hfresh (k, v) (List.mem_cons_self _ _))
    have hocc : isOcc (cellAt t1.table i) = false := by
      rcases probe_stop_spec hp with hfree | hmatch
      · exact hfree
      · exfalso
        have hpos := countKey_pos_of_cellAt hmatch
        rw [hck1 k, hnew] at hpos
        omega
    simp only [hocc, Bool.false_eq_true, if_false] at heq
    have hilen : i < t1.table.length := by rw [hval1.2.1]; exact hilt
    have hvalT : ValidTable ⟨t1.size, t1.elementCount + 1,
        t1.table.set i (some ⟨k, v, true⟩)⟩ := by
      refine ⟨hval1.1, ?_, ?_⟩
      · show (t1.table.set i (some ⟨k, v, true⟩)).length = t1.size
        rw [List.length_set]; exact hval1.2.1
      · show countOccupied (t1.table.set i (some ⟨k, v, true⟩)) =
          t1.elementCount + 1
        rw [countOccupied_set_free hilen hocc (by simp [isOcc]),
          hval1.2.2]
    have hc : countOccupied t.table = t.elementCount := hval.2.2
    have hlen : t.table.length = t.size := hval.2.1
    have hcle := countOccupied_le_length t.table
    have hloadT : 10 * (t1.elementCount + 1) ≤ 7 * t1.size + 10 := by
      rcases hdisj with ⟨hnl, rfl⟩ | ⟨_, h2, _⟩
      · have hnx : ¬7 * t1.size < 10 * t1.elementCount :=
          fun hgt => hnl (hagree.2 hgt)
        omega
      · rw [h2, hc1]
        omega
    have hcbound : t.elementCount ≤ 11744050 := by
      have hone : 1 ≤ ((k, v) :: ps).length := by simp
      omega
    have hpowT : ∃ kp2, kp2 ≤ 24 ∧ t1.size = 2 ^ kp2 := by
      rcases hdisj with ⟨_, rfl⟩ | ⟨hl, h2, _⟩
      · exact ⟨kp, hkp, hsz⟩
      · have hgt : 7 * t.size < 10 * t.elementCount := hagree.1 hl
        have hklt : kp < 24 := by
          by_contra hcon
          have hk24 : kp = 24 := by omega
          rw [hk24] at hsz
          have h24 : (2:Nat) ^ 24 = 16777216 := by norm_num
          omega
        exact ⟨kp + 1, by omega, by rw [h2, hsz, pow_succ]⟩
    have hkeysT : ∀ q ∈ ps,
        hasKey (t1.table.set i (some ⟨k, v, true⟩)) q.1 = false := by
      intro q hq
      have hqk : k ≠ q.1 := (List.pairwise_cons.1 hpair).1 q hq
      have hmq : matchesKey q.1 (cellAt t1.table i) = false :=
        matchesKey_false_of_free hocc
      have hcq := @countKey_set_free t1.table i q.1
        (some ⟨k, v, true⟩) hilen hmq
      have hm0 : matchesKey q.1 (some (⟨k, v, true⟩ : HashSlot)) = false := by
        simp [matchesKey]
        intro hkq
        exact absurd hkq hqk
      rw [hm0] at hcq
      simp only [Bool.false_eq_true, if_false, Nat.add_zero] at hcq
      have hq0 : countKey t.table q.1 = 0 :=
        countKey_eq_zero_of_not_hasKey (hfresh q (List.mem_cons_of_mem _ hq))
      by_contra hby
      have := hasKey_iff_countKey_pos.1 (Bool.of_not_eq_false hby)
      rw [hcq, hck1 q.1, hq0] at this
      omega
    obtain ⟨tf, hsf, hvf, hcf, hlf⟩ :=
      ih ⟨t1.size, t1.elementCount + 1, t1.table.set i (some ⟨k, v, true⟩)⟩
        hvalT hpowT
        (by show t1.elementCount + 1 + ps.length ≤ 11744051
            rw [hc1]
            simp only [List.length_cons] at htot
            omega)
        hloadT (fun q hq => hargs q (List.mem_cons_of_mem _ hq))
        hkeysT (List.pairwise_cons.1 hpair).2
    refine ⟨tf, ?_, hvf, ?_, hlf⟩
    · rw [setAll]
      simp only [heq]
      exact hsf
    · rw [hcf]
      show t1.elementCount + 1 + ps.length = t.elementCount + (ps.length + 1)
      omega

/-- C6 amended: inserting `N ≤ 11744051` pairwise-distinct non-empty keys
with non-null values into a table initialized with capacity 1 never causes
an insertion failure (every `set` returns normally and every key is
counted), and after the last insert `size(t) ≥ (N - 1) / 0.7`, i.e.
`10 · N ≤ 7 · size + 10`.  The bound `size ≥ N / 0.7` claimed originally
fails already at `N = 1` (see the counterexample) because the growth check
uses the pre-insert count; the `N` bound keeps every capacity of the run a
power of two at most `2^24`, the range on which the code's float load test
coincides with the exact threshold `count/size > 0.7` (at
`count = 46976205`, `size = 2^26` the two genuinely part ways). -/
theorem C6_load_growth_amended (ps : List (Key × Nat))
    (hargs : ∀ p ∈ ps, p.1 ≠ [] ∧ p.2 ≠ 0)
    (hpair : ps.Pairwise fun p q => p.1 ≠ q.1)
    (hN : ps.length ≤ 11744051) :
    initHashTable true 1 = some ⟨1, 0, [none]⟩ ∧
    ∃ tf, setAll ⟨1, 0, [none]⟩ ps = .ok tf ∧
      tf.elementCount = ps.length ∧
      10 * ps.length ≤ 7 * hashTableSize (some tf) + 10 := by
  refine ⟨rfl, ?_⟩
  obtain ⟨tf, h1, _h2, h3, h4⟩ :=
    setAll_spec ps ⟨1, 0, [none]⟩ (by decide) ⟨0, by omega, rfl⟩
      (by simpa using hN) (by decide) hargs (fun p _ => rfl) hpair
  refine ⟨tf, h1, by rw [h3]; simp, ?_⟩
  show 10 * ps.length ≤ 7 * tf.size + 10
  omega

/-- Witness for C6 amended with three distinct keys from capacity 1: the
table grows to capacity 4 and all three inserts succeed. -/
theorem C6_load_growth_amended_witness :
    initHashTable true 1 = some ⟨1, 0, [none]⟩ ∧
    ∃ tf, setAll ⟨1, 0, [none]⟩ [([97], 1), ([98], 2), ([99], 3)] =
        .ok tf ∧
      tf.elementCount = 3 ∧
      10 * 3 ≤ 7 * hashTableSize (some tf) + 10 := by
  have h := C6_load_growth_amended [([97], 1), ([98], 2), ([99], 3)]
    (by decide) (by decide) (by norm_num)
  simpa using h

/-- Extracting the spec invariant for one stored key: it occupies exactly
one slot and its probe sequence stops at a slot holding it. -/
theorem tableInv_key_facts {t : HashTable}
    (hslots : ∀ j < t.table.length, slotInv t j = true)
    {j0 : Nat} {k : Key} (hm : matchesKey k (cellAt t.table j0) = true) :
    countKey t.table k = 1 ∧
    ∃ j', probe t.table t.size k t.size (hash k t.size) = some j' ∧
      matchesKey k (cellAt t.table j') = true := by
  cases hc : cellAt t.table j0 with
  | none => rw [hc] at hm; simp [matchesKey] at hm
  | some s =>
    rw [hc] at hm
    obtain ⟨ho, hsk⟩ := matchesKey_some.1 hm
    have hj0 : j0 < t.table.length := cellAt_some_lt hc
    have hsi := hslots j0 hj0
    rw [slotInv] at hsi
    simp only [hc] at hsi
    rw [if_pos ho, Bool.and_eq_true] at hsi
    obtain ⟨hcnt, hreach⟩ := hsi
    rw [hsk] at hcnt hreach
    simp only [beq_iff_eq] at hcnt
    refine ⟨hcnt, ?_⟩
    rw [reachesKey] at hreach
    cases hpr : probe t.table t.size k t.size (hash k t.size) with
    | none => rw [hpr] at hreach; exact Bool.noConfusion hreach
    | some j' =>
      rw [hpr] at hreach
      exact ⟨j', rfl, hreach⟩

/-- C7: idempotent update — on a table satisfying the spec's invariants,
`set(t, k, v1); set(t, k, v2)` both succeed, `get` then returns `v2`, and
the second `set` leaves `elementCount` unchanged (the update overwrites the
value in place). -/
theorem C7_idempotent_update (t : HashTable) (k : Key) (v1 v2 : Nat)
    (hinv : TableInv t) (hk : k ≠ []) (hv1 : v1 ≠ 0) (hv2 : v2 ≠ 0) :
    ∃ t1 t2, hashTableSet true t k v1 = .ok t1 ∧
      hashTableSet true t1 k v2 = .ok t2 ∧
      hashTableGet t2 k = .found v2 ∧
      t2.elementCount = t1.elementCount := by
  obtain ⟨hval, hslots⟩ := hinv
  obtain ⟨ta, i, _hlsa, hvala, _hca, hcka, _hrooma, hdisja, hpa, hilta,
    heqa⟩ := set_spec hval hk hv1
  have hilen : i < ta.table.length := by rw [hvala.2.1]; exact hilta
  have hpT1 : probe (ta.table.set i (some ⟨k, v1, true⟩)) ta.size k ta.size
      (hash k ta.size) = some i := probe_set_match v1 hpa
  have hcT1 : cellAt (ta.table.set i (some ⟨k, v1, true⟩)) i =
      some ⟨k, v1, true⟩ := cellAt_set_eq _ hilen
  have hhkT1 : hasKey (ta.table.set i (some ⟨k, v1, true⟩)) k = true :=
    hasKey_of_cellAt (by rw [hcT1]; exact matchesKey_some.2 ⟨rfl, rfl⟩)
  -- no slot of `ta` other than `i` holds key `k`
  have hother : ∀ j, j ≠ i → matchesKey k (cellAt ta.table j) = false := by
    intro j hji
    by_contra hby
    have hmj : matchesKey k (cellAt ta.table j) = true :=
      Bool.of_not_eq_false hby
    have hposa := countKey_pos_of_cellAt hmj
    have hpost : 0 < countKey t.table k := by rw [← hcka k]; exact hposa
    obtain ⟨j0, _, hmj0⟩ :=
      exists_cellAt_of_hasKey (hasKey_iff_countKey_pos.2 hpost)
    obtain ⟨hone, j', hpr, hmj'⟩ := tableInv_key_facts hslots hmj0
    rcases probe_stop_spec hpa with hfree | hmatch
    · rcases hdisja with ⟨_, rfl⟩ | ⟨_, _, htrans⟩
      · rw [hpa] at hpr
        injection hpr with hij
        rw [← hij] at hmj'
        have hocc' := isOcc_of_matchesKey hmj'
        rw [hfree] at hocc'
        exact Bool.noConfusion hocc'
      · cases hc0 : cellAt t.table j0 with
        | none => rw [hc0] at hmj0; simp [matchesKey] at hmj0
        | some s0 =>
          rw [hc0] at hmj0
          obtain ⟨ho0, hk0⟩ := matchesKey_some.1 hmj0
          have hav : KeyAllVal t.table k s0.value :=
            keyAllVal_of_countKey_one hone hc0
              (matchesKey_some.2 ⟨ho0, hk0⟩)
          have hhkt : hasKey t.table k = true :=
            hasKey_of_cellAt
              (by rw [hc0]; exact matchesKey_some.2 ⟨ho0, hk0⟩)
          obtain ⟨j2, hpj2, hcj2⟩ := htrans k s0.value hav hhkt
          rw [hpa] at hpj2
          injection hpj2 with hij
          rw [← hij] at hcj2
          have hocc' : isOcc (cellAt ta.table i) = true := by
            rw [hcj2]; rfl
          rw [hfree] at hocc'
          exact Bool.noConfusion hocc'
    · have h2 := countKey_pair hji hmj hmatch
      rw [hcka k, hone] at h2
      omega
  -- every slot of the post-first-set table holding `k` carries `v1`
  have hkav : KeyAllVal (ta.table.set i (some ⟨k, v1, true⟩)) k v1 := by
    intro j s hcj hso hskk
    by_cases hji : j = i
    · subst hji
      rw [hcj] at hcT1
      injection hcT1 with hs
      rw [hs]
    · rw [cellAt_set_ne _ (fun he => hji he.symm)] at hcj
      have hmj : matchesKey k (cellAt ta.table j) = true := by
        rw [hcj]; exact matchesKey_some.2 ⟨hso, hskk⟩
      rw [hother j hji] at hmj
      exact Bool.noConfusion hmj
  -- the first set, with the occupancy test resolved
  have hex : ∃ c1, hashTableSet true t k v1 =
      .ok ⟨ta.size, c1, ta.table.set i (some ⟨k, v1, true⟩)⟩ ∧
      countOccupied (ta.table.set i (some ⟨k, v1, true⟩)) = c1 := by
    by_cases hoc : isOcc (cellAt ta.table i) = true
    · refine ⟨ta.elementCount, ?_, ?_⟩
      · rw [if_pos hoc] at heqa; exact heqa
      · rw [countOccupied_set_occ hilen hoc (by simp [isOcc]), hvala.2.2]
    · refine ⟨ta.elementCount + 1, ?_, ?_⟩
      · rw [if_neg hoc] at heqa; exact heqa
      · rw [countOccupied_set_free hilen (Bool.of_not_eq_true hoc)
          (by simp [isOcc]), hvala.2.2]
  obtain ⟨c1, heqa1, hcntT1⟩ := hex
  have hvalT1 : ValidTable ⟨ta.size, c1,
      ta.table.set i (some ⟨k, v1, true⟩)⟩ := by
    refine ⟨hvala.1, ?_, hcntT1⟩
    show (ta.table.set i (some ⟨k, v1, true⟩)).length = ta.size
    rw [List.length_set]; exact hvala.2.1
  -- the second set
  obtain ⟨tb, i2, _hlsb, hvalb, hcb, _hckb, _hroomb, hdisjb, hpb, hiltb,
    heqb⟩ := set_spec hvalT1 hk hv2
  have hcell2 : cellAt tb.table i2 = some ⟨k, v1, true⟩ := by
    rcases hdisjb with ⟨_, rfl⟩ | ⟨_, _, htrans⟩
    · have hpb' : probe (ta.table.set i (some ⟨k, v1, true⟩)) ta.size k
          ta.size (hash k ta.size) = some i2 := hpb
      rw [hpT1] at hpb'
      injection hpb' with hii
      show cellAt (ta.table.set i (some ⟨k, v1, true⟩)) i2 =
        some ⟨k, v1, true⟩
      rw [← hii]
      exact hcT1
    · obtain ⟨j, hpj, hcj⟩ := htrans k v1 hkav hhkT1
      rw [hpb] at hpj
      injection hpj with hji
      rw [← hji] at hcj
      exact hcj
  have hocc2 : isOcc (cellAt tb.table i2) = true := by rw [hcell2]; rfl
  rw [if_pos hocc2] at heqb
  refine ⟨_, _, heqa1, heqb, ?_, ?_⟩
  · have hi2len : i2 < tb.table.length := by rw [hvalb.2.1]; exact hiltb
    refine @get_found _ k v2 i2 ?_ hk ?_ ?_
    · show ¬tb.elementCount = 0
      have hpos := countOccupied_pos_of_cellAt hocc2
      have := hvalb.2.2
      omega
    · show probe (tb.table.set i2 (some ⟨k, v2, true⟩)) tb.size k tb.size
        (hash k tb.size) = some i2
      exact probe_set_match v2 hpb
    · show cellAt (tb.table.set i2 (some ⟨k, v2, true⟩)) i2 =
        some ⟨k, v2, true⟩
      exact cellAt_set_eq _ hi2len
  · show tb.elementCount = c1
    exact hcb

/-- Witness for C7: updating key "d" = `[100]` from value 1 to value 9 on a
valid 2-entry table. -/
theorem C7_idempotent_update_witness :
    ∃ t1 t2,
      hashTableSet true ⟨4, 2, [some ⟨[104], 2, true⟩, none, none,
        some ⟨[100], 1, true⟩]⟩ [100] 5 = .ok t1 ∧
      hashTableSet true t1 [100] 9 = .ok t2 ∧
      hashTableGet t2 [100] = .found 9 ∧
      t2.elementCount = t1.elementCount :=
  C7_idempotent_update ⟨4, 2, [some ⟨[104], 2, true⟩, none, none,
    some ⟨[100], 1, true⟩]⟩ [100] 5 9 (by decide) (by decide) (by decide)
    (by decide)

end HashTableC
